import Mathlib

/-!
Verification of the `fin_agent` streaming core.

This file gives a shallow embedding, over `List Char` strings, of the parts of
the repository that the specification's core claims are about:

* the incremental `<think>`/`</think>` tag-splitting loop inside
  `FinAgent.stream_chat` (src/fin_agent/agent/core.py, lines 170-307);
* the tool-call orchestration loop of `FinAgent.stream_chat`
  (src/fin_agent/agent/core.py, lines 126-390), with the language-model
  transport replaced by a script of streamed turns and the tool dispatcher by
  an explicit function;
* the streaming delta aggregator `OpenAICompatibleClient._handle_stream`
  (src/fin_agent/llm/openai_client.py, lines 66-198);
* the price-alert evaluation and the heartbeat worker check of
  `TaskScheduler` (src/fin_agent/scheduler.py).

Conventions: Python strings are `List Char`; Python `None`-able values are
`Option`; Python float prices and thresholds are `ℚ` (all comparisons in the
source are order comparisons, exactly mirrored on `ℚ`); OS state that the
scheduler reads (file existence, mtime age, file content, liveness of a pid)
is passed in explicitly.  Exceptions raised by the tool dispatcher are
modelled by `Except`.  The language model transport is assumed valid (the
`self.llm` null check at core.py:137) and transport exceptions are not
injected; an exhausted script is reported as a terminal error event the way
any transport exception is (core.py:328-333).
-/

/-- Python string literal as a list of characters. -/
def str (s : String) : List Char := s.data

/-- The reasoning start marker searched for in content mode (core.py:185). -/
def sTag : List Char := str "<think>"

/-- The reasoning end marker searched for in reasoning mode (core.py:244). -/
def eTag : List Char := str "</think>"

/-- The character `<`, the first character of both markers (core.py:196). -/
def ltChar : Char := '<'

/-- `buffer.split(tag, 1)`: split at the first occurrence of `tag`,
returning the part before and the part after, or `none` when `tag` does not
occur (`tag in buffer` false). -/
def splitFirst (tag : List Char) : List Char → Option (List Char × List Char)
  | [] => none
  | c :: rest =>
    if tag.isPrefixOf (c :: rest) then some ([], (c :: rest).drop tag.length)
    else
      match splitFirst tag rest with
      | some (p, r) => some (c :: p, r)
      | none => none

/-- The cosmetic line-break consumption after `</think>` (core.py:251-252):
`if buffer.startswith("\n"): buffer = buffer[1:]
 elif buffer.startswith("\r\n"): buffer = buffer[2:]`. -/
def dropNl : List Char → List Char
  | '\n' :: r => r
  | '\r' :: '\n' :: r => r
  | l => l

/-- Events yielded by `stream_chat` (core.py:126-390).  `content`, `thinking`
and `log` are produced by the tag-splitting loop; the rest by the
orchestration loop.  `toolCallChunkEv` re-emits a raw streaming tool-call
fragment (core.py:294). -/
inductive Ev where
  | content (s : List Char)
  | thinking (s : List Char)
  | log (s : List Char)
  | toolCallChunkEv (index : Nat) (id name args : Option (List Char))
  | toolCall (name args : List Char)
  | toolResult (name result : List Char)
  | answer (s : List Char)
  | error (s : List Char)
  deriving DecidableEq

/-- The side-channel notification text emitted when `<think>` is recognized
(core.py:190). -/
def thinkingLog : List Char := str "Thinking..."

/-- Fuel-indexed version of the inner `while True` buffer loop of
`stream_chat` (core.py:182-281).  One recursive call corresponds to one
Python loop iteration that ended in `continue`; a returned value corresponds
to a `break`.  Content mode (`thinking_state == False`): search `<think>`,
else flush up to the first `<`, keep the buffer when it is a prefix of the
marker, otherwise flush the lone `<`.  Reasoning mode mirrors this with
`</think>` and additionally consumes a line break directly after the marker.
Every recursive call strictly shrinks the buffer, so `buffer.length` fuel
suffices (see `runF_eq_of_le`). -/
def runF : Nat → Bool → List Char → List Ev × Bool × List Char
  | 0, m, b => ([], m, b)
  | Nat.succ fuel, false, b =>
    match splitFirst sTag b with
    | some (pre, post) =>
      let r := runF fuel true post
      ((if pre = [] then [] else [Ev.content pre]) ++ [Ev.log thinkingLog] ++ r.1, r.2)
    | none =>
      match splitFirst [ltChar] b with
      | none => ((if b = [] then [] else [Ev.content b]), false, [])
      | some (pre, post) =>
        let w := ltChar :: post
        if w.isPrefixOf sTag then
          ((if pre = [] then [] else [Ev.content pre]), false, w)
        else
          let r := runF fuel false post
          ((if pre = [] then [] else [Ev.content pre]) ++ [Ev.content [ltChar]] ++ r.1, r.2)
  | Nat.succ fuel, true, b =>
    match splitFirst eTag b with
    | some (pre, post) =>
      let r := runF fuel false (dropNl post)
      ((if pre = [] then [] else [Ev.thinking pre]) ++ r.1, r.2)
    | none =>
      match splitFirst [ltChar] b with
      | none => ((if b = [] then [] else [Ev.thinking b]), true, [])
      | some (pre, post) =>
        let w := ltChar :: post
        if w.isPrefixOf eTag then
          ((if pre = [] then [] else [Ev.thinking pre]), true, w)
        else
          let r := runF fuel true post
          ((if pre = [] then [] else [Ev.thinking pre]) ++ [Ev.thinking [ltChar]] ++ r.1, r.2)

/-- The inner buffer loop of `stream_chat` run to completion on a buffer:
returns the yielded events, the final `thinking_state` and the retained
buffer. -/
def runSplit (m : Bool) (b : List Char) : List Ev × Bool × List Char :=
  runF b.length m b

/-- Splitter state across feed calls: `thinking_state` and the retained
`buffer` (core.py:171-172). -/
abbrev SpState := Bool × List Char

/-- Feeding one content chunk: `buffer += content` then run the loop
(core.py:180-281). -/
def feedChunk (σ : SpState) (s : List Char) : List Ev × SpState :=
  let r := runSplit σ.1 (σ.2 ++ s)
  (r.1, r.2)

/-- Feeding a sequence of content chunks, concatenating the yielded events. -/
def feedList (σ : SpState) : List (List Char) → List Ev × SpState
  | [] => ([], σ)
  | k :: rest =>
    let r := feedChunk σ k
    let r₂ := feedList r.2 rest
    (r.1 ++ r₂.1, r₂.2)

/-- The end-of-stream flush of the retained buffer in its current mode
(core.py:302-307). -/
def finishFlush (σ : SpState) : List Ev :=
  if σ.2 = [] then [] else [if σ.1 then Ev.thinking σ.2 else Ev.content σ.2]

/-- Whole-stream tag splitting: feed every chunk from the initial state
(content mode, empty buffer), then flush. -/
def splitAll (chunks : List (List Char)) : List Ev :=
  let r := feedList (false, []) chunks
  r.1 ++ finishFlush r.2

/-- The mode-tagged characters of one event: `false` = content, `true` =
reasoning; non-text events carry no characters. -/
def evChars : Ev → List (Bool × Char)
  | Ev.content s => s.map (fun c => (false, c))
  | Ev.thinking s => s.map (fun c => (true, c))
  | _ => []

/-- The mode-tagged character stream of an event sequence: each emitted text
character in order, with the mode it was emitted under. -/
def flatEv (l : List Ev) : List (Bool × Char) :=
  (l.map evChars).flatten

/-- All characters emitted by an event sequence, in order, modes erased. -/
def emittedText (l : List Ev) : List Char :=
  (flatEv l).map (fun p => p.2)

/-- Tag a plain string with one mode. -/
def tagm (m : Bool) (s : List Char) : List (Bool × Char) :=
  s.map (fun c => (m, c))

/-- Does a string begin with a line break (`\n` or `\r\n`)?  These are the
two shapes consumed by `dropNl`. -/
def startsNl : List Char → Bool
  | '\n' :: _ => true
  | '\r' :: '\n' :: _ => true
  | _ => false

/-- A balanced document: leading content text, then for each pair a
reasoning span and the content text following its end marker.  The whole
input text is `docText`. -/
def docText (head : List Char) (pairs : List (List Char × List Char)) : List Char :=
  head ++ (pairs.map (fun p => sTag ++ p.1 ++ eTag ++ p.2)).flatten

/-- Well-formedness of a balanced document: no content segment contains the
start marker and no reasoning segment contains the end marker, so each
structural marker is the one the splitter recognizes. -/
def docWF (head : List Char) (pairs : List (List Char × List Char)) : Bool :=
  (splitFirst sTag head).isNone &&
    pairs.all (fun p => (splitFirst eTag p.1).isNone && (splitFirst sTag p.2).isNone)

/-- The canonical mode-tagged character stream of a balanced document: the
text with the markers removed, content segments tagged content and reasoning
segments tagged reasoning. -/
def docFlat (head : List Char) (pairs : List (List Char × List Char)) : List (Bool × Char) :=
  tagm false head ++ (pairs.map (fun p => tagm true p.1 ++ tagm false p.2)).flatten

/-- `T` has no line break directly after an occurrence of `</think>` (and no
`\n` completing a `\r\n` begun right after one).  Quantified over every
prefix length of `T`. -/
def noNlB (T : List Char) : Bool :=
  (List.range (T.length + 1)).all fun n =>
    (!(eTag.isSuffixOf (T.take n)) || !(startsNl (T.drop n))) &&
      (!((eTag ++ ['\r']).isSuffixOf (T.take n)) ||
        !(match T.drop n with | '\n' :: _ => true | _ => false))

/-- The cut condition under which buffer-loop runs compose across a chunk
boundary: when the fed part ends exactly at `</think>` (or at `</think>\r`),
the continuation must not begin with the line break (`\n`, `\r\n`, resp.
`\n`) that `dropNl` would otherwise consume chunk-dependently. -/
def goodCut (u v : List Char) : Prop :=
  (eTag.isSuffixOf u → startsNl v = false) ∧
    ((eTag ++ ['\r']).isSuffixOf u → ∀ t, v ≠ '\n' :: t)

/-- Propositional form of `noNlB`, quantified over all splits of `T`. -/
def noNlP (T : List Char) : Prop :=
  ∀ P Q, T = P ++ Q → goodCut P Q

/-! ## Orchestration loop (`FinAgent.stream_chat`, core.py:126-390) -/

/-- The `function` member of a streamed tool call (openai_client.py:105). -/
structure ToolCallF where
  name : List Char
  arguments : List Char
  deriving DecidableEq

/-- A completed tool-call request (openai_client.py:92). -/
structure ToolCall where
  id : List Char
  type : List Char
  function : ToolCallF
  deriving DecidableEq

/-- A conversation message.  Mirrors the dict shape used in `self.history`
(core.py:73-86, 145, 148, 382-386): role, optional content, optional
tool-call list, and for tool-role messages the id of the call answered. -/
structure Msg where
  role : List Char
  content : Option (List Char)
  tool_calls : Option (List ToolCall)
  tool_call_id : Option (List Char)
  deriving DecidableEq

/-- A chunk yielded by the streaming transport (`_handle_stream`,
openai_client.py:136, 144-150, 192): a content fragment, a raw tool-call
fragment, or the final assembled message. -/
inductive Chunk where
  | content (s : List Char)
  | toolCallChunk (index : Nat) (id name args : Option (List Char))
  | response (m : Msg)
  deriving DecidableEq

/-- One scripted model turn: the chunks the transport yields, and whether a
`KeyboardInterrupt` arrives right after those chunks, mid-stream, before the
iteration finishes (core.py:309). -/
structure Turn where
  chunks : List Chunk
  interrupted : Bool
  deriving DecidableEq

/-- `FinAgent._to_dict` applied to an assembled stream message
(core.py:73-86 with `model_dump`, openai_client.py:82-90): keeps role,
content and tool_calls; a dict built this way carries no `tool_call_id`. -/
def toDict (m : Msg) : Msg :=
  { role := m.role, content := m.content, tool_calls := m.tool_calls, tool_call_id := none }

/-- The tool dispatcher `execute_tool_call` (core.py:362): returns a result
string or raises, modelled as `Except` with the exception text. -/
abbrev Dispatcher := List Char → List Char → Except (List Char) (List Char)

/-- The error text substituted when the dispatcher raises (core.py:363-364):
`f"Error executing tool: {e}"`. -/
def toolErrPre : List Char := str "Error executing tool: "

/-- The result string recorded for one tool call: the dispatcher's result,
or the substituted error text when it raises (core.py:361-364). -/
def execResultStr (d : Dispatcher) (tc : ToolCall) : List Char :=
  match d tc.function.name tc.function.arguments with
  | Except.ok v => v
  | Except.error e => toolErrPre ++ e

/-- The designated "reconfigure model" tool name (core.py:367). -/
def resetToolName : List Char := str "reset_core_config"

/-- Events emitted while executing one tool call (core.py:358-379):
`tool_call`, the reload logs when the tool is `reset_core_config` (the
re-creation of the client is assumed to succeed), then `tool_result`. -/
def toolCallEvents (d : Dispatcher) (tc : ToolCall) : List Ev :=
  [Ev.toolCall tc.function.name tc.function.arguments] ++
    (if tc.function.name = resetToolName then
      [Ev.log (str "Reloading LLM configuration..."),
       Ev.log (str "LLM re-initialized successfully.")]
    else []) ++
    [Ev.toolResult tc.function.name (execResultStr d tc)]

/-- The tool-role history message recorded for one executed call
(core.py:382-386). -/
def toolMsg (d : Dispatcher) (tc : ToolCall) : Msg :=
  { role := str "tool", content := some (execResultStr d tc),
    tool_calls := none, tool_call_id := some tc.id }

/-- Executing a batch of tool calls in order (core.py:352-386), returning
all emitted events and the appended tool messages. -/
def runToolCalls (d : Dispatcher) (tcs : List ToolCall) : List Ev × List Msg :=
  (tcs.flatMap (toolCallEvents d), tcs.map (toolMsg d))

/-- Accumulator while pumping one streamed response (core.py:167-172):
`full_content`, the splitter state, the assembled message seen so far, and
the yielded events. -/
structure SAcc where
  full : List Char
  sp : SpState
  msg : Option Msg
  evs : List Ev

/-- Processing one stream chunk (core.py:176-298): content chunks feed the
tag splitter, tool-call chunks flush the buffer and are re-emitted, a
response chunk records the assembled message. -/
def procChunk (a : SAcc) : Chunk → SAcc
  | Chunk.content s =>
    let r := runSplit a.sp.1 (a.sp.2 ++ s)
    { a with full := a.full ++ s, sp := r.2, evs := a.evs ++ r.1 }
  | Chunk.toolCallChunk i id name args =>
    { a with sp := (a.sp.1, []),
             evs := a.evs ++ finishFlush a.sp ++ [Ev.toolCallChunkEv i id name args] }
  | Chunk.response m => { a with msg := some m }

/-- The initial per-turn stream accumulator (core.py:167-172). -/
def initSAcc : SAcc := { full := [], sp := (false, []), msg := none, evs := [] }

/-- The orchestration loop of `stream_chat` (core.py:150-390), one recursion
per model completion, driven by the remaining script.  An exhausted script
plays the role of a transport exception (core.py:328-333).  On interruption:
emit the error event, save the partial content as a synthetic assistant
message when non-empty, and stop (core.py:309-319).  No tool calls: record
the message, emit the (possibly empty) answer, stop (core.py:339-346).
Otherwise: record the message, execute the batch, loop (core.py:348-386). -/
def loopTurns (d : Dispatcher) : List Turn → List Msg → List Ev × List Msg
  | [], hist => ([Ev.error (str "Error: no scripted response")], hist)
  | t :: rest, hist =>
    let a := t.chunks.foldl procChunk initSAcc
    if t.interrupted then
      let evs := a.evs ++ [Ev.error (str "Interrupted by user")]
      if a.full = [] then (evs, hist)
      else (evs, hist ++ [{ role := str "assistant", content := some a.full,
                            tool_calls := none, tool_call_id := none }])
    else
      let evs := a.evs ++ finishFlush a.sp
      match a.msg with
      | none => (evs, hist)
      | some m =>
        match m.tool_calls with
        | none =>
          (evs ++ [Ev.answer (m.content.getD [])], hist ++ [toDict m])
        | some [] =>
          (evs ++ [Ev.answer (m.content.getD [])], hist ++ [toDict m])
        | some tcs =>
          let hist₂ := hist ++ [toDict m]
          let tr := runToolCalls d tcs
          let rec₂ := loopTurns d rest (hist₂ ++ tr.2)
          (evs ++ tr.1 ++ rec₂.1, rec₂.2)

/-- `FinAgent.stream_chat` (core.py:126-148 then the loop): refresh or
insert the system message at index 0 with the current system content, append
the user message, and run the loop against the scripted transport. -/
def stream_chat (sys : List Char) (d : Dispatcher) (script : List Turn)
    (hist : List Msg) (user : List Char) : List Ev × List Msg :=
  let hist₁ :=
    match hist with
    | m :: rest =>
      if m.role = str "system" then { m with content := some sys } :: rest
      else { role := str "system", content := some sys,
             tool_calls := none, tool_call_id := none } :: m :: rest
    | [] => [{ role := str "system", content := some sys,
               tool_calls := none, tool_call_id := none }]
  let hist₂ := hist₁ ++ [{ role := str "user", content := some user,
                           tool_calls := none, tool_call_id := none }]
  loopTurns d script hist₂

/-- The concatenated text of the content chunks of a stream — the value of
`full_content` after pumping them (core.py:179). -/
def contentText (chunks : List Chunk) : List Char :=
  (chunks.map (fun c => match c with | Chunk.content s => s | _ => [])).flatten

/-- Is an event a terminal answer event? -/
def isAnswer : Ev → Bool
  | Ev.answer _ => true
  | _ => false

/-- Is an event a tool-result event? -/
def isToolRes : Ev → Bool
  | Ev.toolResult _ _ => true
  | _ => false

/-! ## Stream aggregation (`_handle_stream`, openai_client.py:66-198) -/

/-- One streamed tool-call fragment: index plus optional id/name/arguments
substrings (openai_client.py:139-150). -/
structure TCDelta where
  index : Nat
  id : Option (List Char)
  name : Option (List Char)
  args : Option (List Char)
  deriving DecidableEq

/-- One provider delta: an optional content fragment and the tool-call
fragments it carries (openai_client.py:123-139; `delta.tool_calls` being
`None` is the empty list). -/
structure SDelta where
  content : Option (List Char)
  tool_calls : List TCDelta
  deriving DecidableEq

/-- The accumulating record for one tool-call index
(openai_client.py:152-155). -/
structure TCRec where
  id : List Char
  name : List Char
  args : List Char
  deriving DecidableEq

/-- The empty accumulating record (openai_client.py:153-155). -/
def emptyRec : TCRec := { id := [], name := [], args := [] }

/-- Appending one fragment to an accumulating record
(openai_client.py:157-163); absent parts append nothing, exactly like the
`if tc.id:` guards. -/
def applyD (r : TCRec) (d : TCDelta) : TCRec :=
  { id := r.id ++ d.id.getD [], name := r.name ++ d.name.getD [],
    args := r.args ++ d.args.getD [] }

/-- `collected_tool_calls` as an association list keyed by index, in
first-arrival order: update the entry for the fragment's index, creating it
when absent (openai_client.py:152-163). -/
def updTC (l : List (Nat × TCRec)) (d : TCDelta) : List (Nat × TCRec) :=
  match l with
  | [] => [(d.index, applyD emptyRec d)]
  | (i, r) :: rest =>
    if i = d.index then (i, applyD r d) :: rest else (i, r) :: updTC rest d

/-- Lookup in the accumulated association list. -/
def lookupRec (l : List (Nat × TCRec)) (i : Nat) : Option TCRec :=
  match l with
  | [] => none
  | (j, r) :: rest => if j = i then some r else lookupRec rest i

/-- `sorted(collected_tool_calls.keys())` (openai_client.py:171). -/
def sortNat (l : List Nat) : List Nat := List.insertionSort (fun a b => a ≤ b) l

/-- `None`-ify falsy fragment parts for the re-emitted `tool_call_chunk`
(openai_client.py:147-149): an absent or empty string becomes `None`. -/
def normOpt : Option (List Char) → Option (List Char)
  | some [] => none
  | o => o

/-- Accumulator of `_handle_stream`: the collected non-empty content
fragments, the per-index tool-call records, and the chunks yielded so far. -/
structure HAcc where
  contents : List (List Char)
  tcs : List (Nat × TCRec)
  outs : List Chunk

/-- Consuming one delta (openai_client.py:132-163): a truthy content
fragment is collected and yielded; each tool-call fragment is yielded as a
`tool_call_chunk` and folded into its index's record. -/
def hDelta (a : HAcc) (d : SDelta) : HAcc :=
  let a₁ :=
    match d.content with
    | some s =>
      if s = [] then a
      else { a with contents := a.contents ++ [s], outs := a.outs ++ [Chunk.content s] }
    | none => a
  d.tool_calls.foldl
    (fun a₂ tc =>
      { a₂ with
        outs := a₂.outs ++
          [Chunk.toolCallChunk tc.index (normOpt tc.id) (normOpt tc.name) (normOpt tc.args)],
        tcs := updTC a₂.tcs tc })
    a₁

/-- Final assembly of the ordered tool-call list (openai_client.py:168-183):
sort the collected indices and build one `ToolCall` per index. -/
def assembleTCs (l : List (Nat × TCRec)) : List ToolCall :=
  (sortNat (l.map (fun p => p.1))).map fun i =>
    let r := (lookupRec l i).getD emptyRec
    { id := r.id, type := str "function", function := { name := r.name, arguments := r.args } }

/-- The terminal assembled assistant message (openai_client.py:165-189):
content is the concatenation of collected fragments or `None` when none
arrived; tool_calls is the assembled ordered list or `None` when empty. -/
def finalMsg (ds : List SDelta) : Msg :=
  let a := ds.foldl hDelta { contents := [], tcs := [], outs := [] }
  let ftc := assembleTCs a.tcs
  { role := str "assistant",
    content := if a.contents = [] then none else some a.contents.flatten,
    tool_calls := if ftc = [] then none else some ftc,
    tool_call_id := none }

/-- `_handle_stream` as a whole (openai_client.py:116-192): the yielded
chunk sequence, ending with the final assembled message. -/
def handleStream (ds : List SDelta) : List Chunk :=
  (ds.foldl hDelta { contents := [], tcs := [], outs := [] }).outs ++
    [Chunk.response (finalMsg ds)]

/-- The tool-call fragments of a delta stream, in arrival order
(openai_client.py:139-140 iterates them in this order). -/
def tcFrags (ds : List SDelta) : List TCDelta :=
  (ds.map (fun d => d.tool_calls)).flatten

/-- The truthy content fragments of a delta stream, in arrival order
(openai_client.py:133-135). -/
def contentFrags (ds : List SDelta) : List (List Char) :=
  (ds.filterMap (fun d => d.content)).filter (fun s => s ≠ [])

/-- Declarative accumulation: the record for index `i` is the fold of the
fragments with that index, in arrival order. -/
def gather (i : Nat) (tds : List TCDelta) : TCRec :=
  (tds.filter (fun d => d.index = i)).foldl applyD emptyRec

/-- The tool call built from one accumulated record. -/
def mkTC (r : TCRec) : ToolCall :=
  { id := r.id, type := str "function", function := { name := r.name, arguments := r.args } }

/-! ## Scheduler (`TaskScheduler`, scheduler.py) -/

/-- A price-alert task (scheduler.py:60-69). -/
structure ATask where
  id : List Char
  ts_code : List Char
  operator : List Char
  threshold : ℚ
  email : List Char
  enabled : Bool
  deriving DecidableEq

/-- The comparison of `_check_price_alert` (scheduler.py:193-201). -/
def cmpTrig (op : List Char) (price threshold : ℚ) : Bool :=
  if op = str ">" then price > threshold
  else if op = str ">=" then price ≥ threshold
  else if op = str "<" then price < threshold
  else if op = str "<=" then price ≤ threshold
  else false

/-- `_check_price_alert` on one task given the fetched price
(scheduler.py:128-289): `none` models an empty/unavailable quote (early
return at 176-178); a price of exactly `0` is the suspension/error sentinel
and returns before any comparison (187-188); on a true comparison the
notification fires and the task is disabled (203-289).  Returns the updated
task and whether the notification fired. -/
def checkPriceAlert (fetch : List Char → Option ℚ) (task : ATask) : ATask × Bool :=
  match fetch task.ts_code with
  | none => (task, false)
  | some price =>
    if price = 0 then (task, false)
    else if cmpTrig task.operator price task.threshold then
      ({ task with enabled := false }, true)
    else (task, false)

/-- One evaluation cycle for one task as `check_conditions` runs it
(scheduler.py:119-126): a disabled task is skipped unchanged. -/
def checkCycle (fetch : List Char → Option ℚ) (task : ATask) : ATask × Bool :=
  if task.enabled then checkPriceAlert fetch task else (task, false)

/-- Repeated evaluation cycles, one fetched value per cycle, counting how
many times the notification fired. -/
def evalSeq (task : ATask) : List (Option ℚ) → ATask × Nat
  | [] => (task, 0)
  | v :: rest =>
    let r := checkCycle (fun _ => v) task
    let r₂ := evalSeq r.1 rest
    (r₂.1, (if r.2 then 1 else 0) + r₂.2)

/-- `update_price_alert` on a present task (scheduler.py:74-91): overwrite
the provided fields and re-enable the task. -/
def updatePriceAlert (task : ATask) (ts_code : Option (List Char))
    (op : Option (List Char)) (threshold : Option ℚ) : ATask :=
  { task with
    ts_code := ts_code.getD task.ts_code,
    operator := op.getD task.operator,
    threshold := threshold.getD task.threshold,
    enabled := true }

/-- `_is_worker_running` (scheduler.py:336-409) over explicit OS state:
whether the heartbeat file exists, its mtime age in seconds, the pid parsed
from its content (`none` when the file is unreadable/corrupted), and a
liveness predicate for pids (`os.kill(pid, 0)` succeeding).  Returns
(considered running, heartbeat file removed). -/
def isWorkerRunning (alive : Nat → Bool) (fileExists : Bool) (age : ℚ)
    (pidContent : Option Nat) : Bool × Bool :=
  if !fileExists then (false, false)
  else if age < 20 then (true, false)
  else
    match pidContent with
    | some pid => if alive pid then (false, false) else (false, true)
    | none => (false, true)

/-- The deletion precondition the specification states: the pid recorded in
the file is verified, via OS process lookup, to no longer exist. -/
def verifiedDead (alive : Nat → Bool) (pidContent : Option Nat) : Prop :=
  ∃ pid, pidContent = some pid ∧ alive pid = false

/-- No proper nonempty suffix of `tag` is a prefix of `tag` (no border):
guarantees that an occurrence of `tag` cannot straddle its own start. -/
def noOverlapB (tag : List Char) : Bool :=
  (List.range tag.length).all fun k => decide (k = 0) || !(tag.drop k).isPrefixOf tag

/-- The buffer invariant at every point where the buffer loop breaks: the
retained buffer is empty or a proper prefix of the current mode's marker. -/
def bufInv (m : Bool) (b : List Char) : Prop :=
  b = [] ∨ (b.isPrefixOf (if m then eTag else sTag) ∧ b ≠ (if m then eTag else sTag))

/-! ## Properties of `splitFirst` -/

theorem sf_sound {tag : List Char} : ∀ {l p r : List Char},
    splitFirst tag l = some (p, r) → l = p ++ tag ++ r := by
  intro l
  induction l with
  | nil => intro p r h; simp [splitFirst] at h
  | cons c rest ih =>
    intro p r h
    by_cases hp : tag.isPrefixOf (c :: rest)
    · rw [splitFirst, if_pos hp] at h
      obtain ⟨h1, h2⟩ := Prod.mk.injEq .. ▸ Option.some.injEq .. ▸ h
      have hpre : tag <+: c :: rest := List.isPrefixOf_iff_prefix.mp hp
      have ht : tag = List.take tag.length (c :: rest) := List.prefix_iff_eq_take.mp hpre
      subst h1 h2
      simp only [List.nil_append]
      conv_lhs => rw [← List.take_append_drop tag.length (c :: rest)]
      rw [← ht]
    · rw [splitFirst, if_neg hp] at h
      cases hsf : splitFirst tag rest with
      | none => rw [hsf] at h; exact absurd h (by simp)
      | some pr =>
        obtain ⟨p', r'⟩ := pr
        rw [hsf] at h
        obtain ⟨h1, h2⟩ := Prod.mk.injEq .. ▸ Option.some.injEq .. ▸ h
        subst h1 h2
        have := ih hsf
        simp [this]

theorem sf_pre {tag : List Char} : ∀ {l p r : List Char},
    splitFirst tag l = some (p, r) → splitFirst tag p = none := by
  intro l
  induction l with
  | nil => intro p r h; simp [splitFirst] at h
  | cons c rest ih =>
    intro p r h
    by_cases hp : tag.isPrefixOf (c :: rest)
    · rw [splitFirst, if_pos hp] at h
      obtain ⟨h1, _⟩ := Prod.mk.injEq .. ▸ Option.some.injEq .. ▸ h
      subst h1; rfl
    · rw [splitFirst, if_neg hp] at h
      cases hsf : splitFirst tag rest with
      | none => rw [hsf] at h; exact absurd h (by simp)
      | some pr =>
        obtain ⟨p', r'⟩ := pr
        rw [hsf] at h
        obtain ⟨h1, _⟩ := Prod.mk.injEq .. ▸ Option.some.injEq .. ▸ h
        subst h1
        have hrest := sf_sound hsf
        have hnp : ¬ tag.isPrefixOf (c :: p') := by
          intro hP
          apply hp
          have h1 : tag <+: c :: p' := List.isPrefixOf_iff_prefix.mp hP
          have h2 : c :: p' <+: c :: rest := by
            rw [hrest]
            exact ⟨tag ++ r', by simp⟩
          exact List.isPrefixOf_iff_prefix.mpr (h1.trans h2)
        rw [splitFirst, if_neg hnp, ih hsf]

theorem sf_append_some {tag : List Char} : ∀ {l p r : List Char} (v : List Char),
    splitFirst tag l = some (p, r) → splitFirst tag (l ++ v) = some (p, r ++ v) := by
  intro l
  induction l with
  | nil => intro p r v h; simp [splitFirst] at h
  | cons c rest ih =>
    intro p r v h
    by_cases hp : tag.isPrefixOf (c :: rest)
    · rw [splitFirst, if_pos hp] at h
      obtain ⟨h1, h2⟩ := Prod.mk.injEq .. ▸ Option.some.injEq .. ▸ h
      subst h1 h2
      have hpre : tag <+: c :: rest := List.isPrefixOf_iff_prefix.mp hp
      have hlen : tag.length ≤ (c :: rest).length := hpre.length_le
      have hp2 : tag.isPrefixOf ((c :: rest) ++ v) :=
        List.isPrefixOf_iff_prefix.mpr (hpre.trans (List.prefix_append _ v))
      cases hcv : (c :: rest) ++ v with
      | nil => simp at hcv
      | cons d ds =>
        rw [splitFirst, if_pos (hcv ▸ hp2), ← hcv, List.drop_append_of_le_length hlen]
    · rw [splitFirst, if_neg hp] at h
      cases hsf : splitFirst tag rest with
      | none => rw [hsf] at h; exact absurd h (by simp)
      | some pr =>
        obtain ⟨p', r'⟩ := pr
        rw [hsf] at h
        obtain ⟨h1, h2⟩ := Prod.mk.injEq .. ▸ Option.some.injEq .. ▸ h
        subst h1 h2
        have hrest := sf_sound hsf
        have hlen : tag.length ≤ (c :: rest).length := by
          rw [hrest]; simp [List.length_append]; omega
        have hnp : ¬ tag.isPrefixOf ((c :: rest) ++ v) := by
          intro hP
          apply hp
          have h1 : tag <+: (c :: rest) ++ v := List.isPrefixOf_iff_prefix.mp hP
          have h2 := List.prefix_iff_eq_take.mp h1
          rw [List.take_append_of_le_length hlen] at h2
          exact List.isPrefixOf_iff_prefix.mpr (List.prefix_iff_eq_take.mpr h2)
        have hstep : (c :: rest) ++ v = c :: (rest ++ v) := rfl
        rw [hstep] at hnp ⊢
        rw [splitFirst, if_neg hnp, ih v hsf]

theorem sf_none_cons {tag : List Char} {c : Char} {l : List Char}
    (h : splitFirst tag (c :: l) = none) :
    ¬ tag.isPrefixOf (c :: l) ∧ splitFirst tag l = none := by
  by_cases hp : tag.isPrefixOf (c :: l)
  · rw [splitFirst, if_pos hp] at h; exact absurd h (by simp)
  · rw [splitFirst, if_neg hp] at h
    refine ⟨hp, ?_⟩
    cases hsf : splitFirst tag l with
    | none => rfl
    | some pr => obtain ⟨p, r⟩ := pr; rw [hsf] at h; exact absurd h (by simp)

theorem sf_right_some {tag : List Char} : ∀ (x : List Char) {y p r : List Char},
    splitFirst tag y = some (p, r) → ∃ p' r', splitFirst tag (x ++ y) = some (p', r') := by
  intro x
  induction x with
  | nil => intro y p r h; exact ⟨p, r, h⟩
  | cons c xs ih =>
    intro y p r h
    obtain ⟨p', r', hx⟩ := ih h
    by_cases hp : tag.isPrefixOf ((c :: xs) ++ y)
    · cases hcv : (c :: xs) ++ y with
      | nil => simp at hcv
      | cons d ds =>
        rw [hcv] at hp
        refine ⟨[], (d :: ds).drop tag.length, ?_⟩
        rw [splitFirst, if_pos hp]
    · have hstep : (c :: xs) ++ y = c :: (xs ++ y) := rfl
      rw [hstep] at hp ⊢
      exact ⟨c :: p', r', by rw [splitFirst, if_neg hp, hx]⟩

theorem sf_none_append_right {tag : List Char} (x : List Char) {y : List Char}
    (h : splitFirst tag (x ++ y) = none) : splitFirst tag y = none := by
  cases hsf : splitFirst tag y with
  | none => rfl
  | some pr =>
    obtain ⟨p, r⟩ := pr
    obtain ⟨p', r', hx⟩ := sf_right_some x hsf
    rw [h] at hx
    exact absurd hx (by simp)

theorem sf_short {tag : List Char} : ∀ {l : List Char},
    l.length < tag.length → splitFirst tag l = none := by
  intro l
  induction l with
  | nil => intro _; rfl
  | cons c rest ih =>
    intro hlen
    have hnp : ¬ tag.isPrefixOf (c :: rest) := by
      intro hP
      have := (List.isPrefixOf_iff_prefix.mp hP).length_le
      omega
    rw [splitFirst, if_neg hnp, ih (by simp at hlen ⊢; omega)]

theorem sf_isPre {tag l : List Char} (htag : tag ≠ []) (h : tag.isPrefixOf l) :
    splitFirst tag l = some ([], l.drop tag.length) := by
  cases l with
  | nil =>
    have := List.isPrefixOf_iff_prefix.mp h
    rw [List.prefix_nil] at this
    exact absurd this htag
  | cons c rest => rw [splitFirst, if_pos h]

theorem sf_none_all_ne {u : List Char} (h : splitFirst [ltChar] u = none) :
    ∀ c ∈ u, c ≠ ltChar := by
  induction u with
  | nil => intro c hc; simp at hc
  | cons d rest ih =>
    obtain ⟨hnp, hrest⟩ := sf_none_cons h
    intro c hc
    rcases List.mem_cons.mp hc with hc | hc
    · subst hc
      intro hlt
      subst hlt
      exact hnp (List.isPrefixOf_iff_prefix.mpr ⟨rest, rfl⟩)
    · exact ih hrest c hc

theorem sf_append_none {u : List Char} (hu : splitFirst [ltChar] u = none)
    (tag tg : List Char) (htag : tag = ltChar :: tg) (v : List Char) :
    splitFirst tag (u ++ v) =
      (splitFirst tag v).map (fun pr => (u ++ pr.1, pr.2)) := by
  induction u with
  | nil =>
    cases hsf : splitFirst tag v with
    | none => simp [hsf]
    | some pr => obtain ⟨p, r⟩ := pr; simp [hsf]
  | cons c rest ih =>
    obtain ⟨hnp, hrest⟩ := sf_none_cons hu
    have hc : c ≠ ltChar := sf_none_all_ne hu c (by simp)
    have hnp2 : ¬ tag.isPrefixOf (c :: (rest ++ v)) := by
      intro hP
      have := List.isPrefixOf_iff_prefix.mp hP
      rw [htag] at this
      obtain ⟨t, ht⟩ := this
      have : ltChar = c := by
        have := congrArg (fun l => l.head?) ht
        simpa using this
      exact hc this.symm
    have hstep : (c :: rest) ++ v = c :: (rest ++ v) := rfl
    rw [hstep, splitFirst, if_neg hnp2, ih hrest]
    cases hsf : splitFirst tag v with
    | none => simp
    | some pr => obtain ⟨p, r⟩ := pr; simp

theorem sf_exact {tag : List Char} (hno : noOverlapB tag = true) (htag : tag ≠ [])
    : ∀ {u : List Char}, splitFirst tag u = none → ∀ (z : List Char),
    splitFirst tag (u ++ tag ++ z) = some (u, z) := by
  intro u
  induction u with
  | nil =>
    intro _ z
    have hp : tag.isPrefixOf (tag ++ z) :=
      List.isPrefixOf_iff_prefix.mpr (List.prefix_append tag z)
    simp only [List.nil_append]
    rw [sf_isPre htag hp, List.drop_left]
  | cons c u' ih =>
    intro hu z
    obtain ⟨hnp, hu'⟩ := sf_none_cons hu
    have hnp2 : ¬ tag.isPrefixOf ((c :: u') ++ tag ++ z) := by
      intro hP
      have hpre : tag <+: (c :: u') ++ (tag ++ z) := by
        have := List.isPrefixOf_iff_prefix.mp hP
        simpa [List.append_assoc] using this
      by_cases hlen : tag.length ≤ (c :: u').length
      · apply hnp
        have h2 := List.prefix_iff_eq_take.mp hpre
        rw [List.take_append_of_le_length hlen] at h2
        exact List.isPrefixOf_iff_prefix.mpr (List.prefix_iff_eq_take.mpr h2)
      · push_neg at hlen
        set k := (c :: u').length with hk
        have hkpos : 0 < k := by simp [hk]
        have h2 := List.prefix_iff_eq_take.mp hpre
        have htz : (tag ++ z).take (tag.length - k) = tag.take (tag.length - k) :=
          List.take_append_of_le_length (by omega)
        rw [List.take_append_eq_append_take, List.take_of_length_le (by omega),
          htz] at h2
        have hdrop : tag.drop k = tag.take (tag.length - k) := by
          conv_lhs => rw [h2]
          rw [List.drop_left' hk.symm]
        have hpref : (tag.drop k).isPrefixOf tag :=
          List.isPrefixOf_iff_prefix.mpr (hdrop ▸ List.take_prefix _ tag)
        have := (List.all_eq_true.mp hno) k (List.mem_range.mpr hlen)
        simp only [Bool.or_eq_true, decide_eq_true_eq, Bool.not_eq_true'] at this
        rcases this with h0 | h0
        · omega
        · rw [hpref] at h0; exact absurd h0 (by simp)
    have hstep : (c :: u') ++ tag ++ z = c :: (u' ++ tag ++ z) := by simp
    rw [hstep] at hnp2 ⊢
    rw [splitFirst, if_neg hnp2, ih hu' z]

theorem noOverlap_sTag : noOverlapB sTag = true := by decide

theorem noOverlap_eTag : noOverlapB eTag = true := by decide

theorem sTag_ne_nil : sTag ≠ [] := by decide

theorem eTag_ne_nil : eTag ≠ [] := by decide

/-! ## Fuel adequacy and one-step unfolding of the buffer loop -/

theorem dropNl_length_le (l : List Char) : (dropNl l).length ≤ l.length := by
  rw [dropNl.eq_def]
  split <;> simp
  omega

theorem runF_eq_of_le : ∀ (f : Nat) (m : Bool) (b : List Char), b.length ≤ f →
    runF f m b = runF b.length m b := by
  intro f
  induction f using Nat.strong_induction_on with
  | _ f ih =>
    intro m b hle
    cases f with
    | zero =>
      have hb : b = [] := List.length_eq_zero.mp (Nat.le_zero.mp hle)
      subst hb; rfl
    | succ f' =>
      cases b with
      | nil => cases m <;> rfl
      | cons c rest =>
        have hlen : rest.length ≤ f' := by simpa using hle
        show runF (f' + 1) m (c :: rest) = runF (rest.length + 1) m (c :: rest)
        cases m with
        | false =>
          simp only [runF]
          cases hs : splitFirst sTag (c :: rest) with
          | some pr =>
            obtain ⟨pre, post⟩ := pr
            have hplen : post.length ≤ rest.length := by
              have h1 := sf_sound hs
              have h2 : (c :: rest).length = pre.length + sTag.length + post.length := by
                rw [h1]; simp [List.length_append]; omega
              have h3 : sTag.length = 7 := rfl
              simp only [List.length_cons] at h2; omega
            simp only
            rw [ih f' (by omega) true post (by omega),
                ih rest.length (by omega) true post (by omega)]
          | none =>
            simp only
            cases h2 : splitFirst [ltChar] (c :: rest) with
            | none => simp
            | some pr =>
              obtain ⟨pre, post⟩ := pr
              have hplen : post.length ≤ rest.length := by
                have h1 := sf_sound h2
                have h3 : (c :: rest).length = pre.length + 1 + post.length := by
                  rw [h1]; simp [List.length_append]; omega
                simp only [List.length_cons] at h3; omega
              simp only
              by_cases hw : (ltChar :: post).isPrefixOf sTag
              · simp [hw]
              · simp only [hw, Bool.false_eq_true, if_false]
                rw [ih f' (by omega) false post (by omega),
                    ih rest.length (by omega) false post (by omega)]
        | true =>
          simp only [runF]
          cases hs : splitFirst eTag (c :: rest) with
          | some pr =>
            obtain ⟨pre, post⟩ := pr
            have hplen : post.length ≤ rest.length := by
              have h1 := sf_sound hs
              have h2 : (c :: rest).length = pre.length + eTag.length + post.length := by
                rw [h1]; simp [List.length_append]; omega
              have h3 : eTag.length = 8 := rfl
              simp only [List.length_cons] at h2; omega
            have hdlen : (dropNl post).length ≤ rest.length :=
              le_trans (dropNl_length_le post) hplen
            simp only
            rw [ih f' (by omega) false (dropNl post) (by omega),
                ih rest.length (by omega) false (dropNl post) (by omega)]
          | none =>
            simp only
            cases h2 : splitFirst [ltChar] (c :: rest) with
            | none => simp
            | some pr =>
              obtain ⟨pre, post⟩ := pr
              have hplen : post.length ≤ rest.length := by
                have h1 := sf_sound h2
                have h3 : (c :: rest).length = pre.length + 1 + post.length := by
                  rw [h1]; simp [List.length_append]; omega
                simp only [List.length_cons] at h3; omega
              simp only
              by_cases hw : (ltChar :: post).isPrefixOf eTag
              · simp [hw]
              · simp only [hw, Bool.false_eq_true, if_false]
                rw [ih f' (by omega) true post (by omega),
                    ih rest.length (by omega) true post (by omega)]

theorem runSplit_nil (m : Bool) : runSplit m [] = ([], m, []) := by
  cases m <;> rfl

theorem runSplit_content_split {b pre post : List Char}
    (h : splitFirst sTag b = some (pre, post)) :
    runSplit false b =
      ((if pre = [] then [] else [Ev.content pre]) ++ [Ev.log thinkingLog] ++
        (runSplit true post).1, (runSplit true post).2) := by
  cases b with
  | nil => simp [splitFirst] at h
  | cons c rest =>
    have hplen : post.length ≤ rest.length := by
      have h1 := sf_sound h
      have h2 : (c :: rest).length = pre.length + sTag.length + post.length := by
        rw [h1]; simp [List.length_append]; omega
      have h3 : sTag.length = 7 := rfl
      simp only [List.length_cons] at h2; omega
    show runF (c :: rest).length false (c :: rest) = _
    rw [List.length_cons]
    simp only [runF, h]
    rw [runF_eq_of_le rest.length true post hplen]
    rfl

theorem runSplit_content_flush {b : List Char} (h1 : splitFirst sTag b = none)
    (h2 : splitFirst [ltChar] b = none) :
    runSplit false b = ((if b = [] then [] else [Ev.content b]), false, []) := by
  cases b with
  | nil => rfl
  | cons c rest =>
    show runF (c :: rest).length false (c :: rest) = _
    rw [List.length_cons]
    simp only [runF, h1, h2]

theorem runSplit_content_keep {b pre post : List Char} (h1 : splitFirst sTag b = none)
    (h2 : splitFirst [ltChar] b = some (pre, post))
    (h3 : (ltChar :: post).isPrefixOf sTag = true) :
    runSplit false b =
      ((if pre = [] then [] else [Ev.content pre]), false, ltChar :: post) := by
  cases b with
  | nil => simp [splitFirst] at h2
  | cons c rest =>
    show runF (c :: rest).length false (c :: rest) = _
    rw [List.length_cons]
    simp only [runF, h1, h2, h3, if_true]

theorem runSplit_content_drip {b pre post : List Char} (h1 : splitFirst sTag b = none)
    (h2 : splitFirst [ltChar] b = some (pre, post))
    (h3 : (ltChar :: post).isPrefixOf sTag = false) :
    runSplit false b =
      ((if pre = [] then [] else [Ev.content pre]) ++ [Ev.content [ltChar]] ++
        (runSplit false post).1, (runSplit false post).2) := by
  cases b with
  | nil => simp [splitFirst] at h2
  | cons c rest =>
    have hplen : post.length ≤ rest.length := by
      have ha := sf_sound h2
      have h3' : (c :: rest).length = pre.length + 1 + post.length := by
        rw [ha]; simp [List.length_append]; omega
      simp only [List.length_cons] at h3'; omega
    show runF (c :: rest).length false (c :: rest) = _
    rw [List.length_cons]
    simp only [runF, h1, h2, h3, Bool.false_eq_true, if_false]
    rw [runF_eq_of_le rest.length false post hplen]
    rfl

theorem runSplit_think_split {b pre post : List Char}
    (h : splitFirst eTag b = some (pre, post)) :
    runSplit true b =
      ((if pre = [] then [] else [Ev.thinking pre]) ++ (runSplit false (dropNl post)).1,
        (runSplit false (dropNl post)).2) := by
  cases b with
  | nil => simp [splitFirst] at h
  | cons c rest =>
    have hplen : post.length ≤ rest.length := by
      have h1 := sf_sound h
      have h2 : (c :: rest).length = pre.length + eTag.length + post.length := by
        rw [h1]; simp [List.length_append]; omega
      have h3 : eTag.length = 8 := rfl
      simp only [List.length_cons] at h2; omega
    have hdlen : (dropNl post).length ≤ rest.length :=
      le_trans (dropNl_length_le post) hplen
    show runF (c :: rest).length true (c :: rest) = _
    rw [List.length_cons]
    simp only [runF, h]
    rw [runF_eq_of_le rest.length false (dropNl post) hdlen]
    rfl

theorem runSplit_think_flush {b : List Char} (h1 : splitFirst eTag b = none)
    (h2 : splitFirst [ltChar] b = none) :
    runSplit true b = ((if b = [] then [] else [Ev.thinking b]), true, []) := by
  cases b with
  | nil => rfl
  | cons c rest =>
    show runF (c :: rest).length true (c :: rest) = _
    rw [List.length_cons]
    simp only [runF, h1, h2]

theorem runSplit_think_keep {b pre post : List Char} (h1 : splitFirst eTag b = none)
    (h2 : splitFirst [ltChar] b = some (pre, post))
    (h3 : (ltChar :: post).isPrefixOf eTag = true) :
    runSplit true b =
      ((if pre = [] then [] else [Ev.thinking pre]), true, ltChar :: post) := by
  cases b with
  | nil => simp [splitFirst] at h2
  | cons c rest =>
    show runF (c :: rest).length true (c :: rest) = _
    rw [List.length_cons]
    simp only [runF, h1, h2, h3, if_true]

theorem runSplit_think_drip {b pre post : List Char} (h1 : splitFirst eTag b = none)
    (h2 : splitFirst [ltChar] b = some (pre, post))
    (h3 : (ltChar :: post).isPrefixOf eTag = false) :
    runSplit true b =
      ((if pre = [] then [] else [Ev.thinking pre]) ++ [Ev.thinking [ltChar]] ++
        (runSplit true post).1, (runSplit true post).2) := by
  cases b with
  | nil => simp [splitFirst] at h2
  | cons c rest =>
    have hplen : post.length ≤ rest.length := by
      have ha := sf_sound h2
      have h3' : (c :: rest).length = pre.length + 1 + post.length := by
        rw [ha]; simp [List.length_append]; omega
      simp only [List.length_cons] at h3'; omega
    show runF (c :: rest).length true (c :: rest) = _
    rw [List.length_cons]
    simp only [runF, h1, h2, h3, Bool.false_eq_true, if_false]
    rw [runF_eq_of_le rest.length true post hplen]
    rfl

/-! ## Mode-tagged character algebra -/

@[simp]
theorem flatEv_nil : flatEv [] = [] := rfl

@[simp]
theorem flatEv_cons (e : Ev) (l : List Ev) : flatEv (e :: l) = evChars e ++ flatEv l := by
  simp [flatEv]

@[simp]
theorem flatEv_append (a b : List Ev) : flatEv (a ++ b) = flatEv a ++ flatEv b := by
  simp [flatEv]

@[simp]
theorem evChars_content (s : List Char) : evChars (Ev.content s) = tagm false s := rfl

@[simp]
theorem evChars_thinking (s : List Char) : evChars (Ev.thinking s) = tagm true s := rfl

@[simp]
theorem evChars_log (s : List Char) : evChars (Ev.log s) = [] := rfl

@[simp]
theorem tagm_nil (m : Bool) : tagm m [] = [] := rfl

@[simp]
theorem tagm_append (m : Bool) (s t : List Char) :
    tagm m (s ++ t) = tagm m s ++ tagm m t := by
  simp [tagm]

@[simp]
theorem tagm_cons (m : Bool) (c : Char) (s : List Char) :
    tagm m (c :: s) = (m, c) :: tagm m s := rfl

theorem flatEv_if_content (s : List Char) :
    flatEv (if s = [] then ([] : List Ev) else [Ev.content s]) = tagm false s := by
  by_cases h : s = [] <;> simp [h]

theorem flatEv_if_thinking (s : List Char) :
    flatEv (if s = [] then ([] : List Ev) else [Ev.thinking s]) = tagm true s := by
  by_cases h : s = [] <;> simp [h]

theorem sTag_cons : sTag = ltChar :: str "think>" := by decide

theorem eTag_cons : eTag = ltChar :: str "/think>" := by decide

/-! ## Composition of buffer-loop runs across a chunk boundary -/

theorem flush_content (u v : List Char) (hu : splitFirst [ltChar] u = none) :
    flatEv (runSplit false (u ++ v)).1 = tagm false u ++ flatEv (runSplit false v).1 ∧
    (runSplit false (u ++ v)).2 = (runSplit false v).2 := by
  have hsApp := sf_append_none hu sTag (str "think>") sTag_cons v
  cases hsv : splitFirst sTag v with
  | some pr =>
    obtain ⟨p, post⟩ := pr
    rw [hsv] at hsApp
    simp only [Option.map_some'] at hsApp
    rw [runSplit_content_split hsApp, runSplit_content_split hsv]
    refine ⟨?_, rfl⟩
    simp only [flatEv_append, flatEv_if_content, flatEv_cons, evChars_log, flatEv_nil,
      tagm_append]
    simp
  | none =>
    rw [hsv] at hsApp
    simp only [Option.map_none'] at hsApp
    have hltApp := sf_append_none hu [ltChar] [] rfl v
    cases hlv : splitFirst [ltChar] v with
    | none =>
      rw [hlv] at hltApp
      simp only [Option.map_none'] at hltApp
      rw [runSplit_content_flush hsApp hltApp, runSplit_content_flush hsv hlv]
      refine ⟨?_, rfl⟩
      rw [flatEv_if_content, flatEv_if_content, tagm_append]
    | some pr =>
      obtain ⟨p, post⟩ := pr
      rw [hlv] at hltApp
      simp only [Option.map_some'] at hltApp
      cases hw : (ltChar :: post).isPrefixOf sTag with
      | true =>
        rw [runSplit_content_keep hsApp hltApp hw, runSplit_content_keep hsv hlv hw]
        refine ⟨?_, rfl⟩
        simp only [flatEv_if_content, tagm_append]
      | false =>
        rw [runSplit_content_drip hsApp hltApp hw, runSplit_content_drip hsv hlv hw]
        refine ⟨?_, rfl⟩
        simp only [flatEv_append, flatEv_if_content, flatEv_cons, evChars_content,
          flatEv_nil, tagm_append]
        simp

theorem flush_think (u v : List Char) (hu : splitFirst [ltChar] u = none) :
    flatEv (runSplit true (u ++ v)).1 = tagm true u ++ flatEv (runSplit true v).1 ∧
    (runSplit true (u ++ v)).2 = (runSplit true v).2 := by
  have hsApp := sf_append_none hu eTag (str "/think>") eTag_cons v
  cases hsv : splitFirst eTag v with
  | some pr =>
    obtain ⟨p, post⟩ := pr
    rw [hsv] at hsApp
    simp only [Option.map_some'] at hsApp
    rw [runSplit_think_split hsApp, runSplit_think_split hsv]
    refine ⟨?_, rfl⟩
    simp only [flatEv_append, flatEv_if_thinking, flatEv_cons, evChars_log, flatEv_nil,
      tagm_append]
    simp
  | none =>
    rw [hsv] at hsApp
    simp only [Option.map_none'] at hsApp
    have hltApp := sf_append_none hu [ltChar] [] rfl v
    cases hlv : splitFirst [ltChar] v with
    | none =>
      rw [hlv] at hltApp
      simp only [Option.map_none'] at hltApp
      rw [runSplit_think_flush hsApp hltApp, runSplit_think_flush hsv hlv]
      refine ⟨?_, rfl⟩
      rw [flatEv_if_thinking, flatEv_if_thinking, tagm_append]
    | some pr =>
      obtain ⟨p, post⟩ := pr
      rw [hlv] at hltApp
      simp only [Option.map_some'] at hltApp
      cases hw : (ltChar :: post).isPrefixOf eTag with
      | true =>
        rw [runSplit_think_keep hsApp hltApp hw, runSplit_think_keep hsv hlv hw]
        refine ⟨?_, rfl⟩
        simp only [flatEv_if_thinking, tagm_append]
      | false =>
        rw [runSplit_think_drip hsApp hltApp hw, runSplit_think_drip hsv hlv hw]
        refine ⟨?_, rfl⟩
        simp only [flatEv_append, flatEv_if_thinking, flatEv_cons, evChars_thinking,
          flatEv_nil, tagm_append]
        simp

theorem drip_content (post v : List Char)
    (h1 : (ltChar :: post).isPrefixOf sTag = false)
    (h2 : sTag.isPrefixOf (ltChar :: post) = false) :
    flatEv (runSplit false ((ltChar :: post) ++ v)).1 =
      tagm false [ltChar] ++ flatEv (runSplit false (post ++ v)).1 ∧
    (runSplit false ((ltChar :: post) ++ v)).2 = (runSplit false (post ++ v)).2 := by
  have hnp : ¬ sTag.isPrefixOf (ltChar :: (post ++ v)) := by
    intro hP
    have hpre : sTag <+: (ltChar :: post) ++ v := List.isPrefixOf_iff_prefix.mp hP
    by_cases hl : sTag.length ≤ (ltChar :: post).length
    · have h2' := List.prefix_iff_eq_take.mp hpre
      rw [List.take_append_of_le_length hl] at h2'
      have : sTag.isPrefixOf (ltChar :: post) :=
        List.isPrefixOf_iff_prefix.mpr (List.prefix_iff_eq_take.mpr h2')
      rw [h2] at this
      exact absurd this (by simp)
    · push_neg at hl
      have hpre2 : ltChar :: post <+: (ltChar :: post) ++ v := List.prefix_append _ v
      have : ltChar :: post <+: sTag :=
        List.prefix_of_prefix_length_le hpre2 hpre (by omega)
      have hb : (ltChar :: post).isPrefixOf sTag := List.isPrefixOf_iff_prefix.mpr this
      rw [h1] at hb
      exact absurd hb (by simp)
  have hstep : (ltChar :: post) ++ v = ltChar :: (post ++ v) := rfl
  rw [hstep]
  cases hss : splitFirst sTag (post ++ v) with
  | some pr =>
    obtain ⟨p', post₂⟩ := pr
    have hsplit : splitFirst sTag (ltChar :: (post ++ v)) = some (ltChar :: p', post₂) := by
      rw [splitFirst, if_neg hnp, hss]
    rw [runSplit_content_split hsplit, runSplit_content_split hss]
    refine ⟨?_, rfl⟩
    simp only [flatEv_append, flatEv_if_content, flatEv_cons, evChars_log, flatEv_nil,
      tagm_cons]
    simp
  | none =>
    have hsplit : splitFirst sTag (ltChar :: (post ++ v)) = none := by
      rw [splitFirst, if_neg hnp, hss]
    have hlt : splitFirst [ltChar] (ltChar :: (post ++ v)) = some ([], post ++ v) := by
      have : [ltChar].isPrefixOf (ltChar :: (post ++ v)) := by
        simp [List.isPrefixOf]
      rw [sf_isPre (by simp) this]
      rfl
    have hkeep : (ltChar :: (post ++ v)).isPrefixOf sTag = false := by
      by_contra hk
      rw [Bool.not_eq_false] at hk
      have h1' : ltChar :: post <+: ltChar :: (post ++ v) := by
        refine ⟨v, ?_⟩; simp
      have : (ltChar :: post).isPrefixOf sTag :=
        List.isPrefixOf_iff_prefix.mpr
          (h1'.trans (List.isPrefixOf_iff_prefix.mp hk))
      rw [h1] at this
      exact absurd this (by simp)
    rw [runSplit_content_drip hsplit hlt hkeep]
    refine ⟨?_, rfl⟩
    simp

theorem drip_think (post v : List Char)
    (h1 : (ltChar :: post).isPrefixOf eTag = false)
    (h2 : eTag.isPrefixOf (ltChar :: post) = false) :
    flatEv (runSplit true ((ltChar :: post) ++ v)).1 =
      tagm true [ltChar] ++ flatEv (runSplit true (post ++ v)).1 ∧
    (runSplit true ((ltChar :: post) ++ v)).2 = (runSplit true (post ++ v)).2 := by
  have hnp : ¬ eTag.isPrefixOf (ltChar :: (post ++ v)) := by
    intro hP
    have hpre : eTag <+: (ltChar :: post) ++ v := List.isPrefixOf_iff_prefix.mp hP
    by_cases hl : eTag.length ≤ (ltChar :: post).length
    · have h2' := List.prefix_iff_eq_take.mp hpre
      rw [List.take_append_of_le_length hl] at h2'
      have : eTag.isPrefixOf (ltChar :: post) :=
        List.isPrefixOf_iff_prefix.mpr (List.prefix_iff_eq_take.mpr h2')
      rw [h2] at this
      exact absurd this (by simp)
    · push_neg at hl
      have hpre2 : ltChar :: post <+: (ltChar :: post) ++ v := List.prefix_append _ v
      have : ltChar :: post <+: eTag :=
        List.prefix_of_prefix_length_le hpre2 hpre (by omega)
      have hb : (ltChar :: post).isPrefixOf eTag := List.isPrefixOf_iff_prefix.mpr this
      rw [h1] at hb
      exact absurd hb (by simp)
  have hstep : (ltChar :: post) ++ v = ltChar :: (post ++ v) := rfl
  rw [hstep]
  cases hss : splitFirst eTag (post ++ v) with
  | some pr =>
    obtain ⟨p', post₂⟩ := pr
    have hsplit : splitFirst eTag (ltChar :: (post ++ v)) = some (ltChar :: p', post₂) := by
      rw [splitFirst, if_neg hnp, hss]
    rw [runSplit_think_split hsplit, runSplit_think_split hss]
    refine ⟨?_, rfl⟩
    simp only [flatEv_append, flatEv_if_thinking, flatEv_cons, evChars_log, flatEv_nil,
      tagm_cons]
    simp
  | none =>
    have hsplit : splitFirst eTag (ltChar :: (post ++ v)) = none := by
      rw [splitFirst, if_neg hnp, hss]
    have hlt : splitFirst [ltChar] (ltChar :: (post ++ v)) = some ([], post ++ v) := by
      have : [ltChar].isPrefixOf (ltChar :: (post ++ v)) := by
        simp [List.isPrefixOf]
      rw [sf_isPre (by simp) this]
      rfl
    have hkeep : (ltChar :: (post ++ v)).isPrefixOf eTag = false := by
      by_contra hk
      rw [Bool.not_eq_false] at hk
      have h1' : ltChar :: post <+: ltChar :: (post ++ v) := by
        refine ⟨v, ?_⟩; simp
      have : (ltChar :: post).isPrefixOf eTag :=
        List.isPrefixOf_iff_prefix.mpr
          (h1'.trans (List.isPrefixOf_iff_prefix.mp hk))
      rw [h1] at this
      exact absurd this (by simp)
    rw [runSplit_think_drip hsplit hlt hkeep]
    refine ⟨?_, rfl⟩
    simp

/-! ## Break-state invariants of the buffer loop -/

theorem dropNl_suffix (l : List Char) : dropNl l <:+ l := by
  rw [dropNl.eq_def]
  split
  · exact ⟨['\n'], rfl⟩
  · exact ⟨['\r', '\n'], rfl⟩
  · exact List.suffix_refl _

theorem dropNl_eq_self {v : List Char} (h1 : ∀ r, v ≠ '\n' :: r)
    (h2 : ∀ r, v ≠ '\r' :: '\n' :: r) : dropNl v = v := by
  rw [dropNl.eq_def]
  split
  · rename_i r
    exact absurd rfl (h1 r)
  · rename_i r
    exact absurd rfl (h2 r)
  · rfl

theorem dropNl_of_not_startsNl {v : List Char} (h : startsNl v = false) : dropNl v = v := by
  refine dropNl_eq_self (fun r hv => ?_) (fun r hv => ?_)
  · subst hv; simp [startsNl] at h
  · subst hv; simp [startsNl] at h

theorem dropNl_append {post : List Char} (v : List Char)
    (h0 : post = [] → startsNl v = false)
    (h1 : post = ['\r'] → ∀ t, v ≠ '\n' :: t) :
    dropNl (post ++ v) = dropNl post ++ v := by
  cases post with
  | nil => simpa [dropNl] using dropNl_of_not_startsNl (h0 rfl)
  | cons c rest =>
    by_cases hc : c = '\n'
    · subst hc; simp [dropNl]
    · by_cases hr : c = '\r'
      · subst hr
        cases rest with
        | nil =>
          have hv := h1 rfl
          have e1 : dropNl ('\r' :: v) = '\r' :: v := by
            refine dropNl_eq_self (fun r h => ?_) (fun r h => ?_)
            · exact absurd (List.head_eq_of_cons_eq h) (by decide)
            · exact absurd (List.tail_eq_of_cons_eq h) (hv r)
          have e2 : dropNl ['\r'] = ['\r'] := rfl
          simpa [e2] using e1
        | cons d rest₂ =>
          by_cases hd : d = '\n'
          · subst hd; simp [dropNl]
          · have e1 : dropNl ('\r' :: d :: (rest₂ ++ v)) = '\r' :: d :: (rest₂ ++ v) := by
              refine dropNl_eq_self (fun r h => ?_) (fun r h => ?_)
              · exact absurd (List.head_eq_of_cons_eq h) (by decide)
              · exact hd (List.head_eq_of_cons_eq (List.tail_eq_of_cons_eq h))
            have e2 : dropNl ('\r' :: d :: rest₂) = '\r' :: d :: rest₂ := by
              refine dropNl_eq_self (fun r h => ?_) (fun r h => ?_)
              · exact absurd (List.head_eq_of_cons_eq h) (by decide)
              · exact hd (List.head_eq_of_cons_eq (List.tail_eq_of_cons_eq h))
            simp [e1, e2]
      · have hne1 : ∀ (x : List Char) r, c :: x ≠ '\n' :: r := by
          intro x r h
          exact hc (List.head_eq_of_cons_eq h)
        have hne2 : ∀ (x : List Char) r, c :: x ≠ '\r' :: '\n' :: r := by
          intro x r h
          exact hr (List.head_eq_of_cons_eq h)
        have e1 : dropNl (c :: (rest ++ v)) = c :: (rest ++ v) :=
          dropNl_eq_self (hne1 _) (hne2 _)
        have e2 : dropNl (c :: rest) = c :: rest :=
          dropNl_eq_self (hne1 _) (hne2 _)
        simp [e1, e2]

theorem sTag_len : sTag.length = 7 := rfl

theorem eTag_len : eTag.length = 8 := rfl

theorem sf_post_lt {tag : List Char} (htag : tag ≠ []) {l pre post : List Char}
    (h : splitFirst tag l = some (pre, post)) : post.length < l.length := by
  have hs := sf_sound h
  have : tag.length ≠ 0 := fun h0 => htag (List.length_eq_zero.mp h0)
  rw [hs]
  simp [List.length_append]
  omega

theorem sf_not_infix_keep {b pre post : List Char} {tag : List Char} (htag : tag ≠ [])
    (hs : splitFirst tag b = none) (hl : splitFirst [ltChar] b = some (pre, post))
    (hw : (ltChar :: post).isPrefixOf tag = true) : ltChar :: post ≠ tag := by
  intro heq
  have hb := sf_sound hl
  have hpre : tag.isPrefixOf (ltChar :: post) := by
    rw [← heq]
    exact List.isPrefixOf_iff_prefix.mpr (List.prefix_refl _)
  have hsp := sf_isPre htag hpre
  obtain ⟨p', r', hsome⟩ := sf_right_some (pre : List Char) hsp
  have : b = pre ++ (ltChar :: post) := by rw [hb]; simp
  rw [← this] at hsome
  rw [hs] at hsome
  exact absurd hsome (by simp)

theorem sf_no_tag_prefix_of_part {b pre post : List Char} {tag : List Char} (htag : tag ≠ [])
    (hs : splitFirst tag b = none) (hl : splitFirst [ltChar] b = some (pre, post)) :
    tag.isPrefixOf (ltChar :: post) = false := by
  by_contra hk
  rw [Bool.not_eq_false] at hk
  have hb := sf_sound hl
  have hsp := sf_isPre htag hk
  obtain ⟨p', r', hsome⟩ := sf_right_some (pre : List Char) hsp
  have hb2 : b = pre ++ (ltChar :: post) := by rw [hb]; simp
  rw [← hb2] at hsome
  rw [hs] at hsome
  exact absurd hsome (by simp)

theorem runSplit_bufInv : ∀ (n : Nat) (b : List Char), b.length < n → ∀ (m : Bool),
    bufInv ((runSplit m b).2.1) ((runSplit m b).2.2) := by
  intro n
  induction n using Nat.strong_induction_on with
  | _ n ih =>
    intro b hb m
    cases m with
    | false =>
      cases hs : splitFirst sTag b with
      | some pr =>
        obtain ⟨pre, post⟩ := pr
        rw [runSplit_content_split hs]
        exact ih b.length hb post (sf_post_lt sTag_ne_nil hs) true
      | none =>
        cases hl : splitFirst [ltChar] b with
        | none =>
          rw [runSplit_content_flush hs hl]
          exact Or.inl rfl
        | some pr =>
          obtain ⟨pre, post⟩ := pr
          cases hw : (ltChar :: post).isPrefixOf sTag with
          | true =>
            rw [runSplit_content_keep hs hl hw]
            exact Or.inr ⟨by simpa using hw, by simpa using sf_not_infix_keep sTag_ne_nil hs hl hw⟩
          | false =>
            rw [runSplit_content_drip hs hl hw]
            exact ih b.length hb post (sf_post_lt (by simp) hl) false
    | true =>
      cases hs : splitFirst eTag b with
      | some pr =>
        obtain ⟨pre, post⟩ := pr
        rw [runSplit_think_split hs]
        have hlt : (dropNl post).length < b.length :=
          lt_of_le_of_lt (dropNl_length_le post) (sf_post_lt eTag_ne_nil hs)
        exact ih b.length hb (dropNl post) hlt false
      | none =>
        cases hl : splitFirst [ltChar] b with
        | none =>
          rw [runSplit_think_flush hs hl]
          exact Or.inl rfl
        | some pr =>
          obtain ⟨pre, post⟩ := pr
          cases hw : (ltChar :: post).isPrefixOf eTag with
          | true =>
            rw [runSplit_think_keep hs hl hw]
            exact Or.inr ⟨by simpa using hw, by simpa using sf_not_infix_keep eTag_ne_nil hs hl hw⟩
          | false =>
            rw [runSplit_think_drip hs hl hw]
            exact ih b.length hb post (sf_post_lt (by simp) hl) true

theorem runSplit_suffix : ∀ (n : Nat) (b : List Char), b.length < n → ∀ (m : Bool),
    (runSplit m b).2.2 <:+ b := by
  intro n
  induction n using Nat.strong_induction_on with
  | _ n ih =>
    intro b hb m
    cases m with
    | false =>
      cases hs : splitFirst sTag b with
      | some pr =>
        obtain ⟨pre, post⟩ := pr
        rw [runSplit_content_split hs]
        refine (ih b.length hb post (sf_post_lt sTag_ne_nil hs) true).trans ?_
        rw [sf_sound hs]
        exact List.suffix_append _ _
      | none =>
        cases hl : splitFirst [ltChar] b with
        | none =>
          rw [runSplit_content_flush hs hl]
          exact List.nil_suffix
        | some pr =>
          obtain ⟨pre, post⟩ := pr
          have hb2 : b = pre ++ (ltChar :: post) := by rw [sf_sound hl]; simp
          cases hw : (ltChar :: post).isPrefixOf sTag with
          | true =>
            rw [runSplit_content_keep hs hl hw]
            rw [hb2]
            exact List.suffix_append _ _
          | false =>
            rw [runSplit_content_drip hs hl hw]
            refine (ih b.length hb post (sf_post_lt (by simp) hl) false).trans ?_
            rw [hb2]
            exact (List.suffix_cons ltChar post).trans (List.suffix_append _ _)
    | true =>
      cases hs : splitFirst eTag b with
      | some pr =>
        obtain ⟨pre, post⟩ := pr
        rw [runSplit_think_split hs]
        have hlt : (dropNl post).length < b.length :=
          lt_of_le_of_lt (dropNl_length_le post) (sf_post_lt eTag_ne_nil hs)
        refine (ih b.length hb (dropNl post) hlt false).trans ?_
        refine (dropNl_suffix post).trans ?_
        rw [sf_sound hs]
        exact List.suffix_append _ _
      | none =>
        cases hl : splitFirst [ltChar] b with
        | none =>
          rw [runSplit_think_flush hs hl]
          exact List.nil_suffix
        | some pr =>
          obtain ⟨pre, post⟩ := pr
          have hb2 : b = pre ++ (ltChar :: post) := by rw [sf_sound hl]; simp
          cases hw : (ltChar :: post).isPrefixOf eTag with
          | true =>
            rw [runSplit_think_keep hs hl hw]
            rw [hb2]
            exact List.suffix_append _ _
          | false =>
            rw [runSplit_think_drip hs hl hw]
            refine (ih b.length hb post (sf_post_lt (by simp) hl) true).trans ?_
            rw [hb2]
            exact (List.suffix_cons ltChar post).trans (List.suffix_append _ _)

theorem runSplit_fix {m : Bool} {b : List Char} (h : bufInv m b) :
    runSplit m b = ([], m, b) := by
  rcases h with rfl | ⟨hp, hne⟩
  · exact runSplit_nil m
  · cases b with
    | nil => exact runSplit_nil m
    | cons c rest =>
      cases m with
      | false =>
        simp only [Bool.false_eq_true, if_false] at hp hne
        have hpre : c :: rest <+: sTag := List.isPrefixOf_iff_prefix.mp hp
        have hlen : (c :: rest).length < sTag.length := by
          rcases Nat.lt_or_ge (c :: rest).length sTag.length with h | h
          · exact h
          · exact absurd (hpre.eq_of_length (le_antisymm hpre.length_le h)) hne
        have hc : c = ltChar := by
          have := List.prefix_iff_eq_take.mp hpre
          have hhead := congrArg (fun l => l.head?) this
          simpa [sTag, str, ltChar] using hhead
        subst hc
        have hs : splitFirst sTag (ltChar :: rest) = none := sf_short hlen
        have hl : splitFirst [ltChar] (ltChar :: rest) = some ([], rest) := by
          have : [ltChar].isPrefixOf (ltChar :: rest) := by simp [List.isPrefixOf]
          rw [sf_isPre (by simp) this]
          rfl
        rw [runSplit_content_keep hs hl hp]
        simp
      | true =>
        simp only [if_true] at hp hne
        have hpre : c :: rest <+: eTag := List.isPrefixOf_iff_prefix.mp hp
        have hlen : (c :: rest).length < eTag.length := by
          rcases Nat.lt_or_ge (c :: rest).length eTag.length with h | h
          · exact h
          · exact absurd (hpre.eq_of_length (le_antisymm hpre.length_le h)) hne
        have hc : c = ltChar := by
          have := List.prefix_iff_eq_take.mp hpre
          have hhead := congrArg (fun l => l.head?) this
          simpa [eTag, str, ltChar] using hhead
        subst hc
        have hs : splitFirst eTag (ltChar :: rest) = none := sf_short hlen
        have hl : splitFirst [ltChar] (ltChar :: rest) = some ([], rest) := by
          have : [ltChar].isPrefixOf (ltChar :: rest) := by simp [List.isPrefixOf]
          rw [sf_isPre (by simp) this]
          rfl
        rw [runSplit_think_keep hs hl hp]
        simp

theorem goodCut_mono {u v p : List Char} (h : goodCut u v) (hp : p <:+ u) : goodCut p v := by
  refine ⟨fun hsuf => ?_, fun hsuf => ?_⟩
  · exact h.1 (List.isSuffixOf_iff_suffix.mpr
      ((List.isSuffixOf_iff_suffix.mp hsuf).trans hp))
  · exact h.2 (List.isSuffixOf_iff_suffix.mpr
      ((List.isSuffixOf_iff_suffix.mp hsuf).trans hp))

/-- Composing buffer-loop runs across a chunk boundary: feeding `u ++ v` at
once emits the same mode-tagged characters, and reaches the same state, as
feeding `u`, then feeding `v` with the retained buffer prepended — provided
the cut does not fall right after an `</think>` whose following line break
has not arrived yet (`goodCut`). -/
theorem runComp : ∀ (n : Nat) (u : List Char), u.length < n → ∀ (m : Bool) (v : List Char),
    goodCut u v →
    flatEv (runSplit m (u ++ v)).1 =
      flatEv (runSplit m u).1 ++
        flatEv (runSplit ((runSplit m u).2.1) ((runSplit m u).2.2 ++ v)).1 ∧
    (runSplit m (u ++ v)).2 = (runSplit ((runSplit m u).2.1) ((runSplit m u).2.2 ++ v)).2 := by
  intro n
  induction n using Nat.strong_induction_on with
  | _ n ih =>
    intro u hu m v hgc
    cases m with
    | false =>
      cases hs : splitFirst sTag u with
      | some pr =>
        obtain ⟨pre, post⟩ := pr
        have hsu := sf_sound hs
        have hpostlt : post.length < u.length := sf_post_lt sTag_ne_nil hs
        have hpostsuf : post <:+ u := by rw [hsu]; exact List.suffix_append _ _
        have hsv := sf_append_some v hs
        have ihp := ih u.length hu post hpostlt true v (goodCut_mono hgc hpostsuf)
        rw [runSplit_content_split hsv, runSplit_content_split hs]
        constructor
        · simp only [flatEv_append, flatEv_if_content, flatEv_cons, evChars_log, flatEv_nil]
          rw [ihp.1]
          simp [List.append_assoc]
        · exact ihp.2
      | none =>
        cases hl : splitFirst [ltChar] u with
        | none =>
          have hfc := flush_content u v hl
          rw [runSplit_content_flush hs hl]
          constructor
          · rw [hfc.1]
            simp only [flatEv_if_content, List.nil_append]
          · rw [hfc.2]
            simp
        | some pr =>
          obtain ⟨pre, post⟩ := pr
          have hupre : u = pre ++ (ltChar :: post) := by rw [sf_sound hl]; simp
          have hprenone : splitFirst [ltChar] pre = none := sf_pre hl
          have huv : u ++ v = pre ++ ((ltChar :: post) ++ v) := by rw [hupre]; simp
          have hfc := flush_content pre ((ltChar :: post) ++ v) hprenone
          cases hw : (ltChar :: post).isPrefixOf sTag with
          | true =>
            rw [runSplit_content_keep hs hl hw]
            constructor
            · rw [huv, hfc.1]
              simp only [flatEv_if_content]
            · rw [huv, hfc.2]
          | false =>
            have hw2 : sTag.isPrefixOf (ltChar :: post) = false :=
              sf_no_tag_prefix_of_part sTag_ne_nil hs hl
            have hpostlt : post.length < u.length := sf_post_lt (by simp) hl
            have hpostsuf : post <:+ u := by
              rw [hupre]
              exact (List.suffix_cons ltChar post).trans (List.suffix_append _ _)
            have ihp := ih u.length hu post hpostlt false v (goodCut_mono hgc hpostsuf)
            have hdc := drip_content post v hw hw2
            rw [runSplit_content_drip hs hl hw]
            constructor
            · rw [huv, hfc.1, hdc.1, ihp.1]
              simp only [flatEv_append, flatEv_if_content, flatEv_cons, evChars_content,
                flatEv_nil]
              simp [tagm, List.append_assoc]
            · rw [huv, hfc.2, hdc.2]
              exact ihp.2
    | true =>
      cases hs : splitFirst eTag u with
      | some pr =>
        obtain ⟨pre, post⟩ := pr
        have hsu := sf_sound hs
        have hpostlt : post.length < u.length := sf_post_lt eTag_ne_nil hs
        have hdp : dropNl (post ++ v) = dropNl post ++ v := by
          refine dropNl_append v (fun hpost => ?_) (fun hpost => ?_)
          · subst hpost
            refine hgc.1 (List.isSuffixOf_iff_suffix.mpr ?_)
            rw [hsu, List.append_nil]
            exact List.suffix_append _ _
          · subst hpost
            refine hgc.2 (List.isSuffixOf_iff_suffix.mpr ?_)
            rw [hsu, List.append_assoc]
            exact List.suffix_append _ _
        have hdlt : (dropNl post).length < u.length :=
          lt_of_le_of_lt (dropNl_length_le post) hpostlt
        have hdsuf : dropNl post <:+ u := by
          refine (dropNl_suffix post).trans ?_
          rw [hsu]
          exact List.suffix_append _ _
        have hsv := sf_append_some v hs
        have ihp := ih u.length hu (dropNl post) hdlt false v (goodCut_mono hgc hdsuf)
        rw [runSplit_think_split hsv, runSplit_think_split hs, hdp]
        constructor
        · simp only [flatEv_append, flatEv_if_thinking]
          rw [ihp.1]
          simp [List.append_assoc]
        · exact ihp.2
      | none =>
        cases hl : splitFirst [ltChar] u with
        | none =>
          have hfc := flush_think u v hl
          rw [runSplit_think_flush hs hl]
          constructor
          · rw [hfc.1]
            simp only [flatEv_if_thinking, List.nil_append]
          · rw [hfc.2]
            simp
        | some pr =>
          obtain ⟨pre, post⟩ := pr
          have hupre : u = pre ++ (ltChar :: post) := by rw [sf_sound hl]; simp
          have hprenone : splitFirst [ltChar] pre = none := sf_pre hl
          have huv : u ++ v = pre ++ ((ltChar :: post) ++ v) := by rw [hupre]; simp
          have hfc := flush_think pre ((ltChar :: post) ++ v) hprenone
          cases hw : (ltChar :: post).isPrefixOf eTag with
          | true =>
            rw [runSplit_think_keep hs hl hw]
            constructor
            · rw [huv, hfc.1]
              simp only [flatEv_if_thinking]
            · rw [huv, hfc.2]
          | false =>
            have hw2 : eTag.isPrefixOf (ltChar :: post) = false :=
              sf_no_tag_prefix_of_part eTag_ne_nil hs hl
            have hpostlt : post.length < u.length := sf_post_lt (by simp) hl
            have hpostsuf : post <:+ u := by
              rw [hupre]
              exact (List.suffix_cons ltChar post).trans (List.suffix_append _ _)
            have ihp := ih u.length hu post hpostlt true v (goodCut_mono hgc hpostsuf)
            have hdc := drip_think post v hw hw2
            rw [runSplit_think_drip hs hl hw]
            constructor
            · rw [huv, hfc.1, hdc.1, ihp.1]
              simp only [flatEv_append, flatEv_if_thinking, flatEv_cons, evChars_thinking,
                flatEv_nil]
              simp [tagm, List.append_assoc]
            · rw [huv, hfc.2, hdc.2]
              exact ihp.2

/-! ## From `noNlB` to per-cut conditions, and chunk-sequence composition -/

theorem noNlP_of_b {T : List Char} (h : noNlB T = true) : noNlP T := by
  intro P Q hPQ
  have hlen : P.length ≤ T.length := by rw [hPQ]; simp
  have hmem : P.length ∈ List.range (T.length + 1) := List.mem_range.mpr (by omega)
  have hh := (List.all_eq_true.mp h) P.length hmem
  simp only [Bool.and_eq_true, Bool.or_eq_true, Bool.not_eq_true'] at hh
  obtain ⟨h1, h2⟩ := hh
  have htake : T.take P.length = P := by rw [hPQ]; exact List.take_left P Q
  have hdrop : T.drop P.length = Q := by rw [hPQ]; exact List.drop_left P Q
  rw [htake, hdrop] at h1 h2
  constructor
  · intro hsuf
    rcases h1 with h1 | h1
    · rw [hsuf] at h1; simp at h1
    · exact h1
  · intro hsuf t hQ
    rcases h2 with h2 | h2
    · rw [hsuf] at h2; simp at h2
    · subst hQ; simp at h2

theorem noNlP_suffix {T s : List Char} (h : noNlP T) (hs : s <:+ T) : noNlP s := by
  obtain ⟨pre, hpre⟩ := hs
  intro P Q hPQ
  have hT : T = (pre ++ P) ++ Q := by rw [← hpre, hPQ]; simp
  exact goodCut_mono (h (pre ++ P) Q hT) (List.suffix_append pre P)

theorem feedChain : ∀ (chunks : List (List Char)) (m : Bool) (b : List Char),
    bufInv m b → noNlP (b ++ chunks.flatten) →
    flatEv (feedList (m, b) chunks).1 = flatEv (runSplit m (b ++ chunks.flatten)).1 ∧
    (feedList (m, b) chunks).2 = (runSplit m (b ++ chunks.flatten)).2 := by
  intro chunks
  induction chunks with
  | nil =>
    intro m b hinv _
    simp only [feedList, List.flatten_nil, List.append_nil]
    rw [runSplit_fix hinv]
    exact ⟨rfl, rfl⟩
  | cons K rest ihr =>
    intro m b hinv hnl
    have hassoc : b ++ (K :: rest).flatten = (b ++ K) ++ rest.flatten := by
      simp [List.flatten_cons, List.append_assoc]
    have hgc : goodCut (b ++ K) rest.flatten := hnl (b ++ K) rest.flatten hassoc
    have hrc := runComp ((b ++ K).length + 1) (b ++ K) (by omega) m rest.flatten hgc
    have hinv2 : bufInv ((runSplit m (b ++ K)).2.1) ((runSplit m (b ++ K)).2.2) :=
      runSplit_bufInv ((b ++ K).length + 1) (b ++ K) (by omega) m
    have hsuf2 : (runSplit m (b ++ K)).2.2 <:+ b ++ K :=
      runSplit_suffix ((b ++ K).length + 1) (b ++ K) (by omega) m
    have hnl2 : noNlP ((runSplit m (b ++ K)).2.2 ++ rest.flatten) := by
      have hnlBK : noNlP ((b ++ K) ++ rest.flatten) := by rw [← hassoc]; exact hnl
      refine noNlP_suffix hnlBK ?_
      obtain ⟨p, hp⟩ := hsuf2
      exact ⟨p, by rw [← List.append_assoc, hp]⟩
    have ihr2 := ihr (runSplit m (b ++ K)).2.1 (runSplit m (b ++ K)).2.2 hinv2 hnl2
    rw [Prod.mk.eta] at ihr2
    simp only [feedList, feedChunk] at ihr2 ⊢
    constructor
    · rw [hassoc, hrc.1]
      simp only [flatEv_append]
      rw [ihr2.1]
    · rw [hassoc, hrc.2, ihr2.2]

/-! ## The buffer loop on marker-free text -/

theorem runc_content : ∀ (n : Nat) (c : List Char), c.length < n →
    splitFirst sTag c = none →
    ∃ pre, (runSplit false c).2.1 = false ∧ c = pre ++ (runSplit false c).2.2 ∧
      flatEv (runSplit false c).1 = tagm false pre := by
  intro n
  induction n using Nat.strong_induction_on with
  | _ n ih =>
    intro c hc hs
    cases hl : splitFirst [ltChar] c with
    | none =>
      rw [runSplit_content_flush hs hl]
      exact ⟨c, rfl, by simp, by rw [flatEv_if_content]⟩
    | some pr =>
      obtain ⟨pre, post⟩ := pr
      have hcc : c = pre ++ (ltChar :: post) := by rw [sf_sound hl]; simp
      cases hw : (ltChar :: post).isPrefixOf sTag with
      | true =>
        rw [runSplit_content_keep hs hl hw]
        exact ⟨pre, rfl, by simpa using hcc, by rw [flatEv_if_content]⟩
      | false =>
        have hpost_s : splitFirst sTag post = none := by
          refine sf_none_append_right (pre ++ [ltChar]) ?_
          rw [← sf_sound hl]
          exact hs
        obtain ⟨p₂, hm, hsplit, hflat⟩ :=
          ih c.length hc post (sf_post_lt (by simp) hl) hpost_s
        rw [runSplit_content_drip hs hl hw]
        refine ⟨pre ++ ltChar :: p₂, hm, ?_, ?_⟩
        · rw [hcc]
          conv_lhs => rw [hsplit]
          simp
        · simp only [flatEv_append, flatEv_if_content, flatEv_cons, evChars_content,
            flatEv_nil, hflat]
          simp [tagm]

theorem runc_think : ∀ (n : Nat) (c : List Char), c.length < n →
    splitFirst eTag c = none →
    ∃ pre, (runSplit true c).2.1 = true ∧ c = pre ++ (runSplit true c).2.2 ∧
      flatEv (runSplit true c).1 = tagm true pre := by
  intro n
  induction n using Nat.strong_induction_on with
  | _ n ih =>
    intro c hc hs
    cases hl : splitFirst [ltChar] c with
    | none =>
      rw [runSplit_think_flush hs hl]
      exact ⟨c, rfl, by simp, by rw [flatEv_if_thinking]⟩
    | some pr =>
      obtain ⟨pre, post⟩ := pr
      have hcc : c = pre ++ (ltChar :: post) := by rw [sf_sound hl]; simp
      cases hw : (ltChar :: post).isPrefixOf eTag with
      | true =>
        rw [runSplit_think_keep hs hl hw]
        exact ⟨pre, rfl, by simpa using hcc, by rw [flatEv_if_thinking]⟩
      | false =>
        have hpost_s : splitFirst eTag post = none := by
          refine sf_none_append_right (pre ++ [ltChar]) ?_
          rw [← sf_sound hl]
          exact hs
        obtain ⟨p₂, hm, hsplit, hflat⟩ :=
          ih c.length hc post (sf_post_lt (by simp) hl) hpost_s
        rw [runSplit_think_drip hs hl hw]
        refine ⟨pre ++ ltChar :: p₂, hm, ?_, ?_⟩
        · rw [hcc]
          conv_lhs => rw [hsplit]
          simp
        · simp only [flatEv_append, flatEv_if_thinking, flatEv_cons, evChars_thinking,
            flatEv_nil, hflat]
          simp [tagm]

/-! ## The canonical single-pass decomposition of a balanced document -/

theorem flatEv_finishFlush (st : SpState) : flatEv (finishFlush st) = tagm st.1 st.2 := by
  unfold finishFlush
  by_cases h : st.2 = []
  · simp [h]
  · cases hm : st.1 <;> simp [h, hm]

theorem docText_nil (head : List Char) : docText head [] = head := by
  simp [docText]

theorem docText_cons (head r c₂ : List Char) (rest : List (List Char × List Char)) :
    docText head ((r, c₂) :: rest) = head ++ sTag ++ (r ++ eTag ++ docText c₂ rest) := by
  simp [docText, List.append_assoc]

theorem docFlat_nil (head : List Char) : docFlat head [] = tagm false head := by
  simp [docFlat]

theorem docFlat_cons (head r c₂ : List Char) (rest : List (List Char × List Char)) :
    docFlat head ((r, c₂) :: rest) =
      tagm false head ++ (tagm true r ++ docFlat c₂ rest) := by
  simp [docFlat, List.append_assoc]

theorem runDoc : ∀ (pairs : List (List Char × List Char)) (head : List Char),
    splitFirst sTag head = none →
    (∀ p ∈ pairs, splitFirst eTag p.1 = none ∧ splitFirst sTag p.2 = none) →
    noNlP (docText head pairs) →
    flatEv (runSplit false (docText head pairs)).1 ++
      flatEv (finishFlush (runSplit false (docText head pairs)).2) = docFlat head pairs := by
  intro pairs
  induction pairs with
  | nil =>
    intro head hh _ _
    obtain ⟨pre, hm, hsplit, hflat⟩ := runc_content (head.length + 1) head (by omega) hh
    rw [docText_nil] at *
    rw [docFlat_nil, flatEv_finishFlush, hflat, hm]
    rw [← tagm_append]
    rw [← hsplit]
  | cons rc rest ihr =>
    intro head hh hall hnl
    obtain ⟨r, c₂⟩ := rc
    have hr : splitFirst eTag r = none := (hall (r, c₂) (by simp)).1
    have hc2 : splitFirst sTag c₂ = none := (hall (r, c₂) (by simp)).2
    have hdt := docText_cons head r c₂ rest
    have hsplit1 := sf_exact noOverlap_sTag sTag_ne_nil hh (r ++ eTag ++ docText c₂ rest)
    have hsplit2 := sf_exact noOverlap_eTag eTag_ne_nil hr (docText c₂ rest)
    have hnldrop : startsNl (docText c₂ rest) = false := by
      refine (hnl (head ++ sTag ++ r ++ eTag) (docText c₂ rest) ?_).1 ?_
      · rw [hdt]; simp [List.append_assoc]
      · exact List.isSuffixOf_iff_suffix.mpr (List.suffix_append _ _)
    have hdnl : dropNl (docText c₂ rest) = docText c₂ rest :=
      dropNl_of_not_startsNl hnldrop
    have hnl2 : noNlP (docText c₂ rest) := by
      refine noNlP_suffix hnl ?_
      rw [hdt]
      exact ⟨head ++ sTag ++ (r ++ eTag), by simp [List.append_assoc]⟩
    have ihr2 := ihr c₂ hc2 (fun p hp => hall p (by simp [hp])) hnl2
    rw [hdt, runSplit_content_split hsplit1, runSplit_think_split hsplit2, hdnl,
      docFlat_cons]
    simp only [flatEv_append, flatEv_if_content, flatEv_if_thinking, flatEv_cons,
      evChars_log, flatEv_nil]
    rw [← ihr2]
    simp [List.append_assoc]

/-! ## Claim C2 -/

/-- C2 (amended): for a balanced document whose content segments do not
contain `<think>` and whose reasoning segments do not contain `</think>`,
and in which no end marker is directly followed by a line break, feeding the
text in arbitrary chunks (followed by the end-of-stream flush) emits, in
order, exactly the characters of the text with the markers removed, each
tagged with the correct mode — content before/after each span, reasoning
inside — independent of the chunking. -/
theorem c2_splitter_chunk_independence (head : List Char)
    (pairs : List (List Char × List Char)) (chunks : List (List Char))
    (hwf : docWF head pairs = true)
    (hnl : noNlB (docText head pairs) = true)
    (hj : chunks.flatten = docText head pairs) :
    flatEv (splitAll chunks) = docFlat head pairs := by
  have hnlp : noNlP (docText head pairs) := noNlP_of_b hnl
  simp only [docWF, Bool.and_eq_true, List.all_eq_true] at hwf
  obtain ⟨hh, hall⟩ := hwf
  have hh2 : splitFirst sTag head = none := Option.isNone_iff_eq_none.mp hh
  have hall2 : ∀ p ∈ pairs, splitFirst eTag p.1 = none ∧ splitFirst sTag p.2 = none := by
    intro p hp
    have := hall p hp
    simp only [Bool.and_eq_true, Option.isNone_iff_eq_none] at this
    exact this
  have hchain := feedChain chunks false [] (Or.inl rfl)
    (by rw [List.nil_append, hj]; exact hnlp)
  unfold splitAll
  simp only [flatEv_append]
  rw [hchain.1, hchain.2, List.nil_append, hj]
  exact runDoc pairs head hh2 hall2 hnlp

/-- C2 counterexample: for the balanced text `a<think>b</think>\nc`, fed as
one chunk, the emitted text is NOT the original with the markers removed
(the `\n` after `</think>` is also consumed), and it differs from what the
same text fed one character at a time emits — so the claimed round-trip and
chunk-independence fail as stated. -/
theorem c2_counterexample :
    emittedText (splitAll [str "a<think>b</think>\nc"]) ≠ str "ab\nc" ∧
    emittedText (splitAll [str "a<think>b</think>\nc"]) ≠
      emittedText (splitAll ((str "a<think>b</think>\nc").map (fun ch => [ch]))) := by
  decide

/-- C2 witness: a concrete balanced document, fed one character per chunk,
satisfies the hypotheses and the conclusion of the amended claim. -/
theorem c2_witness :
    docWF (str "a") [(str "b", str "c")] = true ∧
    noNlB (docText (str "a") [(str "b", str "c")]) = true ∧
    ((str "a<think>b</think>c").map (fun ch => [ch])).flatten =
      docText (str "a") [(str "b", str "c")] ∧
    flatEv (splitAll ((str "a<think>b</think>c").map (fun ch => [ch]))) =
      docFlat (str "a") [(str "b", str "c")] :=
  ⟨by decide, by decide, by decide,
    c2_splitter_chunk_independence (str "a") [(str "b", str "c")]
      ((str "a<think>b</think>c").map (fun ch => [ch]))
      (by decide) (by decide) (by decide)⟩

/-! ## Claim C8 -/

/-- C8 (amended): when a complete `<think>` is recognized in content mode,
the splitter flushes the text before it as content, emits the
reasoning-started notification, and switches mode — without consuming any
line break after the marker; when a complete `</think>` is recognized in
reasoning mode, it flushes the text before it as reasoning, switches mode,
and consumes a line break after the marker exactly when the line break is
present in the same buffered input (`dropNl` applied to the text already
buffered after the marker). -/
theorem c8_marker_steps (u rest : List Char) :
    (splitFirst sTag u = none →
      runSplit false (u ++ sTag ++ rest) =
        ((if u = [] then [] else [Ev.content u]) ++ [Ev.log thinkingLog] ++
          (runSplit true rest).1, (runSplit true rest).2)) ∧
    (splitFirst eTag u = none →
      runSplit true (u ++ eTag ++ rest) =
        ((if u = [] then [] else [Ev.thinking u]) ++ (runSplit false (dropNl rest)).1,
          (runSplit false (dropNl rest)).2)) :=
  ⟨fun hu => runSplit_content_split (sf_exact noOverlap_sTag sTag_ne_nil hu rest),
   fun hu => runSplit_think_split (sf_exact noOverlap_eTag eTag_ne_nil hu rest)⟩

/-- C8 witness: the marker-step characterization applied at concrete
inputs. -/
theorem c8_marker_steps_witness :
    (runSplit false (str "x" ++ sTag ++ str "\ny") =
      ((if str "x" = [] then [] else [Ev.content (str "x")]) ++ [Ev.log thinkingLog] ++
        (runSplit true (str "\ny")).1, (runSplit true (str "\ny")).2)) ∧
    (runSplit true (str "r" ++ eTag ++ str "\nz") =
      ((if str "r" = [] then [] else [Ev.thinking (str "r")]) ++
        (runSplit false (dropNl (str "\nz"))).1,
        (runSplit false (dropNl (str "\nz"))).2)) :=
  ⟨(c8_marker_steps (str "x") (str "\ny")).1 (by decide),
   (c8_marker_steps (str "r") (str "\nz")).2 (by decide)⟩

/-- C8 counterexample: the claim predicts that a line break directly after
`<think>` is consumed; on `<think>\nx</think>\nok` (one chunk) that would
emit exactly the text `xok`, but the code keeps the `\n` after the start
marker (it emits `\nxok`). -/
theorem c8_counterexample :
    emittedText (splitAll [str "<think>\nx</think>\nok"]) ≠ str "xok" := by
  decide

/-! ## Claim C1 -/

/-- C1: against a scripted transport that returns one tool-call turn (one
tool call `X`) and then a final-answer turn, one `stream_chat` turn leaves
the history as, in order: system (refreshed), user, assistant with
`tool_calls = [X]`, a tool message whose `tool_call_id` is `X.id`, and an
assistant message whose content is the answer; and exactly one terminal
answer event is emitted — with the answer text taken verbatim, also when it
is empty. -/
theorem c1_tool_then_answer (old sys user ans : List Char) (c₁ : Option (List Char))
    (X : ToolCall) (d : Dispatcher) :
    (stream_chat sys d
        [⟨[Chunk.response ⟨str "assistant", c₁, some [X], none⟩], false⟩,
         ⟨[Chunk.response ⟨str "assistant", some ans, none, none⟩], false⟩]
        [⟨str "system", some old, none, none⟩] user).2 =
      [⟨str "system", some sys, none, none⟩,
       ⟨str "user", some user, none, none⟩,
       ⟨str "assistant", c₁, some [X], none⟩,
       ⟨str "tool", some (execResultStr d X), none, some X.id⟩,
       ⟨str "assistant", some ans, none, none⟩] ∧
    (stream_chat sys d
        [⟨[Chunk.response ⟨str "assistant", c₁, some [X], none⟩], false⟩,
         ⟨[Chunk.response ⟨str "assistant", some ans, none, none⟩], false⟩]
        [⟨str "system", some old, none, none⟩] user).1.filter isAnswer =
      [Ev.answer ans] := by
  constructor
  · simp [stream_chat, loopTurns, procChunk, initSAcc, finishFlush, runToolCalls,
      toolMsg, toDict]
  · simp [stream_chat, loopTurns, procChunk, initSAcc, finishFlush, runToolCalls,
      toolCallEvents, toDict, List.filter_append, apply_ite (List.filter isAnswer),
      isAnswer]

/-! ## Claim C3 -/

/-- C3: for a batch of two tool calls `X` and `Y` where the dispatcher
raises for `X` and succeeds for `Y`, the orchestrator appends both tool
result messages to history — `X`'s content being the substituted error
string — emits both `tool_result` events, and proceeds to request the next
scripted completion (whose answer is recorded and emitted) instead of
aborting the turn. -/
theorem c3_dispatcher_error_batch (old sys user ans e rr : List Char)
    (c₁ : Option (List Char)) (X Y : ToolCall) (d : Dispatcher)
    (hX : d X.function.name X.function.arguments = Except.error e)
    (hY : d Y.function.name Y.function.arguments = Except.ok rr) :
    (stream_chat sys d
        [⟨[Chunk.response ⟨str "assistant", c₁, some [X, Y], none⟩], false⟩,
         ⟨[Chunk.response ⟨str "assistant", some ans, none, none⟩], false⟩]
        [⟨str "system", some old, none, none⟩] user).2 =
      [⟨str "system", some sys, none, none⟩,
       ⟨str "user", some user, none, none⟩,
       ⟨str "assistant", c₁, some [X, Y], none⟩,
       ⟨str "tool", some (toolErrPre ++ e), none, some X.id⟩,
       ⟨str "tool", some rr, none, some Y.id⟩,
       ⟨str "assistant", some ans, none, none⟩] ∧
    (stream_chat sys d
        [⟨[Chunk.response ⟨str "assistant", c₁, some [X, Y], none⟩], false⟩,
         ⟨[Chunk.response ⟨str "assistant", some ans, none, none⟩], false⟩]
        [⟨str "system", some old, none, none⟩] user).1.filter isToolRes =
      [Ev.toolResult X.function.name (toolErrPre ++ e),
       Ev.toolResult Y.function.name rr] ∧
    (stream_chat sys d
        [⟨[Chunk.response ⟨str "assistant", c₁, some [X, Y], none⟩], false⟩,
         ⟨[Chunk.response ⟨str "assistant", some ans, none, none⟩], false⟩]
        [⟨str "system", some old, none, none⟩] user).1.filter isAnswer =
      [Ev.answer ans] := by
  refine ⟨?_, ?_, ?_⟩
  · simp [stream_chat, loopTurns, procChunk, initSAcc, finishFlush, runToolCalls,
      toolMsg, toDict, execResultStr, hX, hY]
  · simp [stream_chat, loopTurns, procChunk, initSAcc, finishFlush, runToolCalls,
      toolCallEvents, toDict, List.filter_append, apply_ite (List.filter isToolRes),
      isToolRes, execResultStr, hX, hY]
  · simp [stream_chat, loopTurns, procChunk, initSAcc, finishFlush, runToolCalls,
      toolCallEvents, toDict, List.filter_append, apply_ite (List.filter isAnswer),
      isAnswer]

/-- C3 witness: a concrete two-call batch with a dispatcher that raises for
the first call and succeeds for the second. -/
theorem c3_dispatcher_error_batch_witness :
    (fun n (_ : List Char) =>
        if n = str "f" then (Except.error (str "boom") : Except (List Char) (List Char))
        else Except.ok (str "fine")) (str "f") (str "p") = Except.error (str "boom") ∧
    (fun n (_ : List Char) =>
        if n = str "f" then (Except.error (str "boom") : Except (List Char) (List Char))
        else Except.ok (str "fine")) (str "g") (str "q") = Except.ok (str "fine") ∧
    ((stream_chat (str "s")
        (fun n (_ : List Char) =>
          if n = str "f" then (Except.error (str "boom") : Except (List Char) (List Char))
          else Except.ok (str "fine"))
        [⟨[Chunk.response ⟨str "assistant", none,
            some [⟨str "1", str "function", ⟨str "f", str "p"⟩⟩,
                  ⟨str "2", str "function", ⟨str "g", str "q"⟩⟩], none⟩], false⟩,
         ⟨[Chunk.response ⟨str "assistant", some (str "done"), none, none⟩], false⟩]
        [⟨str "system", some (str "o"), none, none⟩] (str "u")).2 =
      [⟨str "system", some (str "s"), none, none⟩,
       ⟨str "user", some (str "u"), none, none⟩,
       ⟨str "assistant", none,
          some [⟨str "1", str "function", ⟨str "f", str "p"⟩⟩,
                ⟨str "2", str "function", ⟨str "g", str "q"⟩⟩], none⟩,
       ⟨str "tool", some (toolErrPre ++ str "boom"), none, some (str "1")⟩,
       ⟨str "tool", some (str "fine"), none, some (str "2")⟩,
       ⟨str "assistant", some (str "done"), none, none⟩]) := by
  refine ⟨rfl, rfl, ?_⟩
  exact (c3_dispatcher_error_batch (str "o") (str "s") (str "u") (str "done")
    (str "boom") (str "fine") none
    ⟨str "1", str "function", ⟨str "f", str "p"⟩⟩
    ⟨str "2", str "function", ⟨str "g", str "q"⟩⟩
    _ rfl rfl).1

/-! ## Claims C6 and C10 -/

theorem procChunk_full (chunks : List Chunk) : ∀ (a : SAcc),
    (chunks.foldl procChunk a).full = a.full ++ contentText chunks := by
  induction chunks with
  | nil => intro a; simp [contentText]
  | cons c rest ih =>
    intro a
    rw [List.foldl_cons, ih]
    cases c <;> simp [procChunk, contentText, List.append_assoc]

/-- C6 counterexample: a mid-stream cancellation in which the transport has
yielded nothing leaves history as just the refreshed system and the user
message — no synthetic assistant message is appended, contradicting the
claim's "for every mid-stream cancellation". -/
theorem c6_counterexample :
    (stream_chat (str "s") (fun _ _ => Except.ok []) [⟨[], true⟩]
        [⟨str "system", some (str "o"), none, none⟩] (str "u")).2 =
      [⟨str "system", some (str "s"), none, none⟩,
       ⟨str "user", some (str "u"), none, none⟩] ∧
    ∀ m ∈ (stream_chat (str "s") (fun _ _ => Except.ok []) [⟨[], true⟩]
        [⟨str "system", some (str "o"), none, none⟩] (str "u")).2,
      m.role ≠ str "assistant" := by
  constructor
  · rfl
  · decide

/-- C6 (amended): for a mid-stream cancellation of a turn in which the
accumulated content is non-empty, the orchestrator appends a synthetic
assistant message carrying exactly the accumulated content, with
`tool_calls` absent, as the last history entry, and stops — the rest of the
script is never consumed. -/
theorem c6_cancel_preserves_content (old sys user : List Char) (chunks : List Chunk)
    (rest : List Turn) (d : Dispatcher) (h : contentText chunks ≠ []) :
    (stream_chat sys d (⟨chunks, true⟩ :: rest)
        [⟨str "system", some old, none, none⟩] user).2 =
      [⟨str "system", some sys, none, none⟩,
       ⟨str "user", some user, none, none⟩,
       ⟨str "assistant", some (contentText chunks), none, none⟩] := by
  have hfull : (chunks.foldl procChunk initSAcc).full = contentText chunks := by
    rw [procChunk_full]; rfl
  simp only [stream_chat, loopTurns, hfull]
  simp [h]

/-- C6 witness: a concrete cancelled stream with one non-empty content
chunk. -/
theorem c6_cancel_preserves_content_witness :
    contentText [Chunk.content (str "hi")] ≠ [] ∧
    (stream_chat (str "s") (fun _ _ => Except.ok []) [⟨[Chunk.content (str "hi")], true⟩]
        [⟨str "system", some (str "o"), none, none⟩] (str "u")).2 =
      [⟨str "system", some (str "s"), none, none⟩,
       ⟨str "user", some (str "u"), none, none⟩,
       ⟨str "assistant", some (contentText [Chunk.content (str "hi")]), none, none⟩] :=
  ⟨by decide,
    c6_cancel_preserves_content (str "o") (str "s") (str "u")
      [Chunk.content (str "hi")] [] _ (by decide)⟩

/-- C10: a mid-stream interruption in which no content at all was
accumulated appends nothing: the history after the aborted turn is exactly
the refreshed system message at index 0 and the newly appended user
message. -/
theorem c10_cancel_empty_no_append (old sys user : List Char) (chunks : List Chunk)
    (rest : List Turn) (d : Dispatcher) (h : contentText chunks = []) :
    (stream_chat sys d (⟨chunks, true⟩ :: rest)
        [⟨str "system", some old, none, none⟩] user).2 =
      [⟨str "system", some sys, none, none⟩,
       ⟨str "user", some user, none, none⟩] := by
  have hfull : (chunks.foldl procChunk initSAcc).full = contentText chunks := by
    rw [procChunk_full]; rfl
  simp only [stream_chat, loopTurns, hfull]
  simp [h]

/-- C10 witness: a cancelled stream whose chunks carry no content (a bare
tool-call fragment). -/
theorem c10_cancel_empty_no_append_witness :
    contentText [Chunk.toolCallChunk 0 none none none] = [] ∧
    (stream_chat (str "s") (fun _ _ => Except.ok [])
        [⟨[Chunk.toolCallChunk 0 none none none], true⟩]
        [⟨str "system", some (str "o"), none, none⟩] (str "u")).2 =
      [⟨str "system", some (str "s"), none, none⟩,
       ⟨str "user", some (str "u"), none, none⟩] :=
  ⟨by decide,
    c10_cancel_empty_no_append (str "o") (str "s") (str "u")
      [Chunk.toolCallChunk 0 none none none] [] _ (by decide)⟩

/-! ## Claims C4 and C9 (price alerts) -/

theorem cmpTrig_lt (p t : ℚ) : cmpTrig (str "<") p t = decide (p < t) := by
  unfold cmpTrig
  rw [if_neg (by decide), if_neg (by decide), if_pos rfl]

theorem evalSeq_disabled (t : ATask) (h : t.enabled = false) :
    ∀ vs : List (Option ℚ), evalSeq t vs = (t, 0) := by
  intro vs
  induction vs with
  | nil => rfl
  | cons v rest ih =>
    simp [evalSeq, checkCycle, h, ih]

/-- C4: a task with comparator `<` and threshold 100, evaluated on the
prices `[150, 150, 90]`, fires exactly once — not yet on the 150s, on the
90 — and is disabled afterwards; evaluating the disabled task on any
further price sequence never fires; `update_price_alert` re-enables it, and
a subsequent evaluation whose comparison holds (price 90) fires again. -/
theorem c4_alert_fire_once (id code em : List Char) :
    evalSeq ⟨id, code, str "<", 100, em, true⟩ [some 150, some 150] =
      (⟨id, code, str "<", 100, em, true⟩, 0) ∧
    evalSeq ⟨id, code, str "<", 100, em, true⟩ [some 150, some 150, some 90] =
      (⟨id, code, str "<", 100, em, false⟩, 1) ∧
    (∀ vs : List (Option ℚ),
      evalSeq ⟨id, code, str "<", 100, em, false⟩ vs =
        (⟨id, code, str "<", 100, em, false⟩, 0)) ∧
    updatePriceAlert ⟨id, code, str "<", 100, em, false⟩ none none none =
      ⟨id, code, str "<", 100, em, true⟩ ∧
    evalSeq (updatePriceAlert ⟨id, code, str "<", 100, em, false⟩ none none none)
      [some 90] = (⟨id, code, str "<", 100, em, false⟩, 1) := by
  have h150 : cmpTrig (str "<") 150 100 = false := by rw [cmpTrig_lt]; norm_num
  have h90 : cmpTrig (str "<") 90 100 = true := by rw [cmpTrig_lt]; norm_num
  have hz150 : ((150 : ℚ) = 0) = False := by norm_num
  have hz90 : ((90 : ℚ) = 0) = False := by norm_num
  refine ⟨?_, ?_, ?_, rfl, ?_⟩
  · simp [evalSeq, checkCycle, checkPriceAlert, h150, hz150]
  · simp [evalSeq, checkCycle, checkPriceAlert, h150, h90, hz150, hz90,
      evalSeq_disabled ⟨id, code, str "<", 100, em, false⟩ rfl]
  · exact evalSeq_disabled _ rfl
  · simp [updatePriceAlert, evalSeq, checkCycle, checkPriceAlert, h90, hz90]

/-- C9: an enabled alert task whose fetched current value is the zero
sentinel is left unchanged and fires nothing — the guard returns before any
comparison, so `0` is never treated as satisfying a `<` threshold. -/
theorem c9_zero_sentinel (task : ATask) (fetch : List Char → Option ℚ)
    (he : task.enabled = true) (h0 : fetch task.ts_code = some 0) :
    checkCycle fetch task = (task, false) := by
  simp [checkCycle, he, checkPriceAlert, h0]

/-- C9 witness: a `<` task with threshold 100 (so `0 < 100` holds) fed the
zero sentinel. -/
theorem c9_zero_sentinel_witness :
    (⟨str "t1", str "c1", str "<", 100, str "e", true⟩ : ATask).enabled = true ∧
    (fun _ : List Char => some (0 : ℚ))
      (⟨str "t1", str "c1", str "<", 100, str "e", true⟩ : ATask).ts_code = some 0 ∧
    checkCycle (fun _ => some 0) ⟨str "t1", str "c1", str "<", 100, str "e", true⟩ =
      (⟨str "t1", str "c1", str "<", 100, str "e", true⟩, false) :=
  ⟨rfl, rfl,
    c9_zero_sentinel ⟨str "t1", str "c1", str "<", 100, str "e", true⟩
      (fun _ => some 0) rfl rfl⟩

/-! ## Claim C5 (heartbeat worker check) -/

/-- C5 counterexample: a heartbeat file that exists, is 25 seconds old, and
whose content cannot be parsed as a pid is removed by the check even though
no recorded pid was verified dead — contradicting "deleted only when the
process id recorded in the file can be verified to no longer exist". -/
theorem c5_counterexample :
    isWorkerRunning (fun _ => true) true 25 none = (false, true) ∧
    ¬ verifiedDead (fun _ => true) none := by
  refine ⟨by norm_num [isWorkerRunning], ?_⟩
  rintro ⟨pid, hp, _⟩
  simp at hp

/-- C5 (amended): the check returns true exactly when the heartbeat file
exists and its age is strictly below 20 seconds; when the age is 20 seconds
or more the process may proceed (the check returns false), and the stale
file is removed exactly when either the recorded pid is verified dead via
OS process lookup, or no pid can be read from the file at all. -/
theorem c5_worker_check (alive : Nat → Bool) (fileExists : Bool) (age : ℚ)
    (pidContent : Option Nat) :
    ((isWorkerRunning alive fileExists age pidContent).1 = true ↔
      fileExists = true ∧ age < 20) ∧
    ((isWorkerRunning alive fileExists age pidContent).2 = true ↔
      fileExists = true ∧ 20 ≤ age ∧
        (pidContent = none ∨ verifiedDead alive pidContent)) := by
  unfold isWorkerRunning
  cases fileExists with
  | false => simp
  | true =>
    by_cases hage : age < 20
    · have h2 : ¬ (20 ≤ age) := not_le.mpr hage
      simp [hage, h2]
    · have h2 : 20 ≤ age := not_lt.mp hage
      cases pidContent with
      | none => simp [hage, h2]
      | some pid =>
        cases halive : alive pid with
        | false => simp [hage, h2, verifiedDead, halive]
        | true => simp [hage, h2, verifiedDead, halive]

/-! ## Claim C7 (stream aggregation) -/

theorem inner_fold_contents (l : List TCDelta) : ∀ (a : HAcc),
    (l.foldl
      (fun a₂ tc =>
        { a₂ with
          outs := a₂.outs ++
            [Chunk.toolCallChunk tc.index (normOpt tc.id) (normOpt tc.name) (normOpt tc.args)],
          tcs := updTC a₂.tcs tc })
      a).contents = a.contents := by
  induction l with
  | nil => intro a; rfl
  | cons tc rest ih => intro a; rw [List.foldl_cons, ih]

theorem inner_fold_tcs (l : List TCDelta) : ∀ (a : HAcc),
    (l.foldl
      (fun a₂ tc =>
        { a₂ with
          outs := a₂.outs ++
            [Chunk.toolCallChunk tc.index (normOpt tc.id) (normOpt tc.name) (normOpt tc.args)],
          tcs := updTC a₂.tcs tc })
      a).tcs = l.foldl updTC a.tcs := by
  induction l with
  | nil => intro a; rfl
  | cons tc rest ih => intro a; rw [List.foldl_cons, ih, List.foldl_cons]

theorem contentFrags_cons (d : SDelta) (rest : List SDelta) :
    contentFrags (d :: rest) =
      (match d.content with
        | some s => if s = [] then [] else [s]
        | none => []) ++ contentFrags rest := by
  cases hd : d.content with
  | none => simp [contentFrags, List.filterMap_cons, hd]
  | some s =>
    by_cases hs : s = [] <;>
      simp [contentFrags, List.filterMap_cons, List.filter_cons, hd, hs]

theorem tcFrags_cons (d : SDelta) (rest : List SDelta) :
    tcFrags (d :: rest) = d.tool_calls ++ tcFrags rest := by
  simp [tcFrags]

theorem hAcc_contents (ds : List SDelta) : ∀ (a : HAcc),
    (ds.foldl hDelta a).contents = a.contents ++ contentFrags ds := by
  induction ds with
  | nil => intro a; simp [contentFrags]
  | cons d rest ih =>
    intro a
    rw [List.foldl_cons, ih, contentFrags_cons]
    show (hDelta a d).contents ++ contentFrags rest = _
    unfold hDelta
    rw [inner_fold_contents]
    cases hd : d.content with
    | none => simp
    | some s => by_cases hs : s = [] <;> simp [hs]

theorem hAcc_tcs (ds : List SDelta) : ∀ (a : HAcc),
    (ds.foldl hDelta a).tcs = (tcFrags ds).foldl updTC a.tcs := by
  induction ds with
  | nil => intro a; simp [tcFrags]
  | cons d rest ih =>
    intro a
    rw [List.foldl_cons, ih, tcFrags_cons, List.foldl_append]
    show (tcFrags rest).foldl updTC (hDelta a d).tcs = _
    unfold hDelta
    rw [inner_fold_tcs]
    cases hd : d.content with
    | none => simp
    | some s => by_cases hs : s = [] <;> simp [hs]

theorem updTC_keys (l : List (Nat × TCRec)) (d : TCDelta) :
    (updTC l d).map Prod.fst =
      if d.index ∈ l.map Prod.fst then l.map Prod.fst
      else l.map Prod.fst ++ [d.index] := by
  induction l with
  | nil => simp [updTC]
  | cons p rest ih =>
    obtain ⟨j, r⟩ := p
    by_cases hj : j = d.index
    · rw [updTC, if_pos hj]
      have hmem : d.index ∈ ((j, r) :: rest).map Prod.fst := by
        simp [hj.symm]
      rw [if_pos hmem]
      simp
    · rw [updTC, if_neg hj]
      by_cases hmem : d.index ∈ rest.map Prod.fst
      · have hmem2 : d.index ∈ ((j, r) :: rest).map Prod.fst := by simp [hmem]
        rw [if_pos hmem2]
        simp only [List.map_cons, ih, if_pos hmem]
      · have hmem2 : ¬ d.index ∈ ((j, r) :: rest).map Prod.fst := by
          simp [hmem]
          exact fun h => hj h.symm
        rw [if_neg hmem2]
        simp only [List.map_cons, ih, if_neg hmem]
        simp

theorem lookupRec_cons (j : Nat) (r : TCRec) (rest : List (Nat × TCRec)) (i : Nat) :
    lookupRec ((j, r) :: rest) i = if j = i then some r else lookupRec rest i := rfl

theorem updTC_lookup (l : List (Nat × TCRec)) (d : TCDelta) (i : Nat) :
    lookupRec (updTC l d) i =
      if i = d.index then some (applyD ((lookupRec l d.index).getD emptyRec) d)
      else lookupRec l i := by
  induction l with
  | nil =>
    by_cases hi : i = d.index
    · rw [if_pos hi]
      show (if d.index = i then some (applyD emptyRec d) else none) = _
      rw [if_pos hi.symm]
      rfl
    · rw [if_neg hi]
      show (if d.index = i then some (applyD emptyRec d) else none) = none
      rw [if_neg (fun h => hi h.symm)]
  | cons p rest ih =>
    obtain ⟨j, r⟩ := p
    by_cases hj : j = d.index
    · rw [updTC, if_pos hj]
      by_cases hji : j = i
      · have hi : i = d.index := hji ▸ hj
        rw [lookupRec_cons, if_pos hji, if_pos hi, lookupRec_cons, if_pos hj]
        rfl
      · have hi : ¬ i = d.index := fun h => hji (hj.trans h.symm)
        rw [lookupRec_cons, if_neg hji, if_neg hi, lookupRec_cons, if_neg hji]
    · rw [updTC, if_neg hj]
      by_cases hji : j = i
      · have hi : ¬ i = d.index := fun h => hj (hji.trans h)
        rw [lookupRec_cons, if_pos hji, if_neg hi, lookupRec_cons, if_pos hji]
      · rw [lookupRec_cons, if_neg hji, ih, lookupRec_cons, if_neg hj, lookupRec_cons,
          if_neg hji]

theorem collect_lookup : ∀ (tds : List TCDelta) (l : List (Nat × TCRec)) (i : Nat),
    lookupRec (tds.foldl updTC l) i =
      match lookupRec l i with
      | some r => some ((tds.filter (fun d => d.index = i)).foldl applyD r)
      | none =>
        if i ∈ tds.map (fun d => d.index) then
          some ((tds.filter (fun d => d.index = i)).foldl applyD emptyRec)
        else none := by
  intro tds
  induction tds with
  | nil =>
    intro l i
    cases h : lookupRec l i <;> simp [h]
  | cons d rest ih =>
    intro l i
    rw [List.foldl_cons, ih, updTC_lookup]
    by_cases hi : i = d.index
    · rw [if_pos hi, hi]
      cases h : lookupRec l d.index with
      | some r => simp [h, List.filter_cons, List.foldl_cons]
      | none => simp [h, List.filter_cons, List.foldl_cons]
    · rw [if_neg hi]
      cases h : lookupRec l i with
      | some r =>
        simp only [List.filter_cons]
        have : (decide (d.index = i)) = false := by
          simp
          exact fun h2 => hi h2.symm
        simp [this]
      | none =>
        simp only [List.filter_cons, List.map_cons]
        have hd : (decide (d.index = i)) = false := by
          simp
          exact fun h2 => hi h2.symm
        have hmem : (i ∈ d.index :: rest.map (fun d => d.index)) =
            (i ∈ rest.map (fun d => d.index)) := by
          simp [List.mem_cons, hi]
        simp [hd, hmem]

theorem collect_keys_mem : ∀ (tds : List TCDelta) (l : List (Nat × TCRec)) (i : Nat),
    i ∈ (tds.foldl updTC l).map Prod.fst ↔
      i ∈ l.map Prod.fst ∨ i ∈ tds.map (fun d => d.index) := by
  intro tds
  induction tds with
  | nil => intro l i; simp
  | cons d rest ih =>
    intro l i
    rw [List.foldl_cons, ih, updTC_keys]
    by_cases hmem : d.index ∈ l.map Prod.fst
    · rw [if_pos hmem]
      simp only [List.map_cons, List.mem_cons]
      constructor
      · rintro (h | h)
        · exact Or.inl h
        · exact Or.inr (Or.inr h)
      · rintro (h | h | h)
        · exact Or.inl h
        · subst h; exact Or.inl hmem
        · exact Or.inr h
    · rw [if_neg hmem]
      simp only [List.map_cons, List.mem_cons, List.mem_append, List.mem_singleton]
      tauto

theorem collect_keys_nodup : ∀ (tds : List TCDelta) (l : List (Nat × TCRec)),
    (l.map Prod.fst).Nodup → ((tds.foldl updTC l).map Prod.fst).Nodup := by
  intro tds
  induction tds with
  | nil => intro l h; exact h
  | cons d rest ih =>
    intro l h
    rw [List.foldl_cons]
    refine ih (updTC l d) ?_
    rw [updTC_keys]
    by_cases hmem : d.index ∈ l.map Prod.fst
    · rw [if_pos hmem]; exact h
    · rw [if_neg hmem]
      simp [List.nodup_append, h, hmem]

theorem sortNat_sorted (l : List Nat) : List.Sorted (fun a b => a ≤ b) (sortNat l) :=
  List.sorted_insertionSort _ l

theorem sortNat_perm (l : List Nat) : (sortNat l).Perm l :=
  List.perm_insertionSort _ l

/-- C7: the aggregator's terminal message has role assistant; its content is
the concatenation, in arrival order, of the non-empty content fragments (or
absent when none arrived); and its tool_calls (absent when no tool-call
fragment arrived) is the list, ordered by strictly one entry per distinct
index sorted ascending, whose entry for index `i` concatenates exactly the
fragments with index `i` in arrival order (`gather`); the whole yielded
chunk stream ends with that message. -/
theorem c7_stream_aggregation (ds : List SDelta) :
    (finalMsg ds).role = str "assistant" ∧
    (finalMsg ds).content =
      (if contentFrags ds = [] then none else some (contentFrags ds).flatten) ∧
    (∃ ks : List Nat,
      (finalMsg ds).tool_calls =
        (if tcFrags ds = [] then none
         else some (ks.map (fun i => mkTC (gather i (tcFrags ds))))) ∧
      List.Sorted (fun a b => a ≤ b) ks ∧ ks.Nodup ∧
      (∀ i : Nat, i ∈ ks ↔ i ∈ (tcFrags ds).map (fun d => d.index))) ∧
    (handleStream ds).getLast? = some (Chunk.response (finalMsg ds)) := by
  have hc := hAcc_contents ds { contents := [], tcs := [], outs := [] }
  have ht := hAcc_tcs ds { contents := [], tcs := [], outs := [] }
  simp only [List.nil_append] at hc
  refine ⟨rfl, ?_, ?_, ?_⟩
  · show (if (ds.foldl hDelta { contents := [], tcs := [], outs := [] }).contents = []
        then none
        else some (ds.foldl hDelta { contents := [], tcs := [], outs := [] }).contents.flatten) = _
    rw [hc]
  · refine ⟨sortNat (((tcFrags ds).foldl updTC []).map Prod.fst), ?_, sortNat_sorted _,
      ?_, ?_⟩
    · show (if assembleTCs (ds.foldl hDelta { contents := [], tcs := [], outs := [] }).tcs = []
          then none else some (assembleTCs (ds.foldl hDelta { contents := [], tcs := [], outs := [] }).tcs)) = _
      rw [ht]
      cases htf : tcFrags ds with
      | nil => rfl
      | cons t rest =>
        have hmem : t.index ∈ ((t :: rest).foldl updTC ([] : List (Nat × TCRec))).map Prod.fst := by
          rw [collect_keys_mem]
          simp
        have hkeys_ne : ((t :: rest).foldl updTC ([] : List (Nat × TCRec))).map Prod.fst ≠ [] := by
          intro h0
          rw [h0] at hmem
          simp at hmem
        have hsort_ne : sortNat (((t :: rest).foldl updTC ([] : List (Nat × TCRec))).map Prod.fst) ≠ [] := by
          intro h0
          apply hkeys_ne
          have hlen := (sortNat_perm
            (((t :: rest).foldl updTC ([] : List (Nat × TCRec))).map Prod.fst)).length_eq
          rw [h0] at hlen
          exact List.length_eq_zero.mp hlen.symm
        have hmap : assembleTCs ((t :: rest).foldl updTC []) =
            (sortNat (((t :: rest).foldl updTC ([] : List (Nat × TCRec))).map Prod.fst)).map
              (fun i => mkTC (gather i (t :: rest))) := by
          unfold assembleTCs mkTC
          refine List.map_congr_left ?_
          intro i hi
          have hi2 : i ∈ ((t :: rest).foldl updTC ([] : List (Nat × TCRec))).map Prod.fst :=
            (sortNat_perm _).mem_iff.mp hi
          have hidx : i ∈ (t :: rest).map (fun d => d.index) := by
            rcases (collect_keys_mem (t :: rest) [] i).mp hi2 with h | h
            · simp at h
            · exact h
          have hlook := collect_lookup (t :: rest) [] i
          simp only [lookupRec] at hlook
          rw [if_pos hidx] at hlook
          rw [hlook]
          rfl
        rw [hmap]
        rw [if_neg ?_]
        · rfl
        · intro h0
          rcases List.map_eq_nil_iff.mp h0 with h1
          exact hsort_ne h1
    · refine ((sortNat_perm _).nodup_iff).mpr ?_
      exact collect_keys_nodup (tcFrags ds) [] (by simp)
    · intro i
      rw [(sortNat_perm _).mem_iff, collect_keys_mem]
      simp
  · unfold handleStream
    simp
